import Mathlib

/-!
Verification of the ddarecover rescue core against its specification.

The Rust sources are embedded shallowly:

* `src/tagged_range.rs` — the tagged interval map (`TaggedRange`).  The
  `BTreeMap<u64, InternalRegion<T>>` keyed by run start is embedded as a list
  of `Region`s kept sorted by `start`; the `BTreeMap` primitives
  (`range`, `insert`, `remove`, ordered iteration) become the list operations
  `insertKey`, `removeKey`, `lookupKey`, `maxBelow`, `minFrom`, `keysIn`.
* `src/map_file.rs` — sector states, the map-file record and its
  line-oriented text format, including the `combine` parsers.
* `src/phase.rs` — the `Phase` enumeration.
* `src/main.rs` — the read-splitting arithmetic (`range_to_reads`,
  `ReadIter::next`), the histogram cache (`update_histogram`,
  `get_histogram`) and the completion-application step
  (`try_drain_request`).
* `src/block.rs` — the slot bookkeeping of `BlockDevice::submit_request`.

Machine integers (`u64`, `usize`) are embedded as `Nat`; where a Rust
operation can overflow or underflow a comment notes how the embedding
treats it.
-/

set_option maxHeartbeats 1000000
set_option linter.unusedVariables false

namespace DDare

/-! ## Sector states (src/map_file.rs) -/

/-- The five sector states of `map_file.rs`. -/
inductive SectorState where
  | Untried
  | Untrimmed
  | Unscraped
  | Bad
  | Rescued
deriving DecidableEq, Repr

/-- `SectorState::as_char` (the discriminant byte of each variant). -/
def SectorState.asChar : SectorState → Char
  | .Untried => '?'
  | .Untrimmed => '*'
  | .Unscraped => '/'
  | .Bad => '-'
  | .Rescued => '+'

/-- The candidate list iterated by `SectorState::from_char`. -/
def SectorState.values : List SectorState :=
  [.Untried, .Untrimmed, .Unscraped, .Bad, .Rescued]

/-- `SectorState::from_char`: scan the candidate list for a matching
character, otherwise a parse error naming "sector state". -/
def SectorState.fromChar (c : Char) : Except String SectorState :=
  match SectorState.values.find? (fun s => s.asChar = c) with
  | some s => .ok s
  | none => .error "sector state"

/-! ## Phases (src/phase.rs) -/

/-- The `Phase` enumeration, including the two extra variants `Filling`
and `Generating` that the source defines beyond the five spec phases. -/
inductive Phase where
  | Copying
  | Trimming
  | Scraping
  | Retrying
  | Filling
  | Generating
  | Finished
deriving DecidableEq, Repr

/-- `Phase::as_char` (the discriminant byte of each variant). -/
def Phase.asChar : Phase → Char
  | .Copying => '?'
  | .Trimming => '*'
  | .Scraping => '/'
  | .Retrying => '-'
  | .Filling => 'F'
  | .Generating => 'G'
  | .Finished => '+'

/-- `Phase::values`: the static array of five phases scanned by
`Phase::from_char` (it omits `Filling` and `Generating`). -/
def Phase.values : List Phase :=
  [.Copying, .Trimming, .Scraping, .Retrying, .Finished]

/-- `Phase::from_char`: scan `Phase::values` for a matching character,
otherwise a parse error naming "phase". -/
def Phase.fromChar (c : Char) : Except String Phase :=
  match Phase.values.find? (fun p => p.asChar = c) with
  | some p => .ok p
  | none => .error "phase"

/-- `Phase::target_sectors`. -/
def Phase.targetSectors : Phase → Option SectorState
  | .Copying => some .Untried
  | .Trimming => some .Untrimmed
  | .Scraping => some .Unscraped
  | .Retrying => some .Bad
  | .Filling => none
  | .Generating => none
  | .Finished => none

/-! ## The tagged interval map (src/tagged_range.rs)

A `TaggedRange<T>` holds `starts: BTreeMap<u64, InternalRegion<T>>`; an
entry `(start, (length, tag))` is a run.  The embedding keeps the entries
as a list of `Region`s in ascending key order, which is exactly the order
the `BTreeMap` exposes through `range`/iteration. -/

/-- A run: `tagged_range.rs`'s `Region` (also standing for a map entry
`(start, InternalRegion { length, tag })`). -/
structure Region (T : Type) where
  start : Nat
  length : Nat
  tag : T
deriving DecidableEq, Repr

/-- One-past-the-end offset of a run (`start + length`, used throughout
`tagged_range.rs`). -/
def Region.stop {T : Type} (e : Region T) : Nat := e.start + e.length

/-- The map of runs, in ascending `start` order. -/
abbrev TaggedRange (T : Type) := List (Region T)

variable {T : Type}

/-- `BTreeMap::insert` on the sorted entry list: place the new entry at its
key position, replacing an entry with the same key. -/
def insertKey : TaggedRange T → Region T → TaggedRange T
  | [], r => [r]
  | e :: rest, r =>
    if r.start < e.start then r :: e :: rest
    else if r.start = e.start then r :: rest
    else e :: insertKey rest r

/-- `BTreeMap::remove` (ignoring the returned value): drop the entry with
the given key. -/
def removeKey (m : TaggedRange T) (k : Nat) : TaggedRange T :=
  m.filter (fun e => e.start ≠ k)

/-- Key lookup (`BTreeMap` indexing / `remove`'s returned value). -/
def lookupKey (m : TaggedRange T) (k : Nat) : Option (Region T) :=
  m.find? (fun e => e.start = k)

/-- `self.starts.range(0..k).rev().next()`: the entry with the greatest
key strictly below `k`. -/
def maxBelow (m : TaggedRange T) (k : Nat) : Option (Region T) :=
  (m.filter (fun e => e.start < k)).getLast?

/-- `self.starts.range(k..).next()`: the entry with the least key at or
above `k`. -/
def minFrom (m : TaggedRange T) (k : Nat) : Option (Region T) :=
  (m.filter (fun e => k ≤ e.start)).head?

/-- The keys of `self.starts.range(a..b)`, in order
(`TaggedRange::put`'s `overlaps` vector). -/
def keysIn (m : TaggedRange T) (a b : Nat) : List Nat :=
  (m.filter (fun e => a ≤ e.start ∧ e.start < b)).map Region.start

/-- `TaggedRange::get_covering_range`: its start; the range's end is the
query's end.  If the run just left of `lo` reaches past `lo`, start from
that run's key, else from `lo`. -/
def coveringStart (m : TaggedRange T) (lo : Nat) : Nat :=
  match maxBelow m lo with
  | some e => if lo < e.stop then e.start else lo
  | none => lo

/-- The body of `TaggedRange::put`'s loop over `overlaps`: remove the run
whose key is `k` and re-insert its residuals outside `[lo, hi)`.  (In the
source the key is always present; the `none` arm is dead.) -/
def splitOne (lo hi : Nat) (m : TaggedRange T) (k : Nat) : TaggedRange T :=
  match lookupKey m k with
  | none => m
  | some e =>
    let m1 := removeKey m k
    let m2 := if k < lo then insertKey m1 ⟨k, lo - k, e.tag⟩ else m1
    if hi < e.stop then insertKey m2 ⟨hi, e.stop - hi, e.tag⟩ else m2

/-- `TaggedRange::merge_at_offset`: if the runs just left and just right
of `offset` touch and carry equal tags, replace them by their union. -/
def mergeAtOffset [DecidableEq T] (m : TaggedRange T) (off : Nat) : TaggedRange T :=
  match maxBelow m off, minFrom m off with
  | some a, some b =>
    if a.stop = b.start ∧ a.tag = b.tag then
      insertKey (removeKey (removeKey m a.start) b.start) ⟨a.start, a.length + b.length, a.tag⟩
    else m
  | _, _ => m

/-- `TaggedRange::put`.  The source asserts `range.end >= range.start`
(panicking otherwise — the `hi ≤ lo` guard also covers the asserted case,
which every use of this embedding excludes by hypothesis) and returns
unchanged when the range is empty. -/
def put [DecidableEq T] (m : TaggedRange T) (lo hi : Nat) (tag : T) : TaggedRange T :=
  if hi ≤ lo then m
  else
    let l := coveringStart m lo
    let ks := keysIn m l hi
    let m1 := ks.foldl (splitOne lo hi) m
    let m2 := insertKey m1 ⟨lo, hi - lo, tag⟩
    mergeAtOffset (mergeAtOffset m2 lo) hi

/-- The residual that `put`'s split loop re-inserts left of `lo`: the
clipped head of the overlapped block, when it starts before `lo`. -/
def resLeft (M : TaggedRange T) (lo : Nat) : TaggedRange T :=
  match M.head? with
  | some e => if e.start < lo then [⟨e.start, lo - e.start, e.tag⟩] else []
  | none => []

/-- The residual that `put`'s split loop re-inserts at `hi`: the clipped
tail of the overlapped block, when it stops past `hi`. -/
def resRight (M : TaggedRange T) (hi : Nat) : TaggedRange T :=
  match M.getLast? with
  | some e => if hi < e.stop then [⟨hi, e.stop - hi, e.tag⟩] else []
  | none => []

/-- `2^64`, the number of `u64` values (`u64::max_value() = U64LIMIT - 1`). -/
def U64LIMIT : Nat := 2 ^ 64

/-- `TaggedRange::iter_range`: the runs whose keys lie in the covering
range, each clipped to `[lo, hi)` exactly as `Iter::next` does. -/
def iterRange (m : TaggedRange T) (lo hi : Nat) : List (Region T) :=
  (m.filter (fun e => coveringStart m lo ≤ e.start ∧ e.start < hi)).map
    (fun e => ⟨max e.start lo, min e.stop hi - max e.start lo, e.tag⟩)

/-- `TaggedRange::iter` (`into_iter`): every run, clipped to
`0..u64::max_value()` by `Iter::next`. -/
def iterAll (m : TaggedRange T) : List (Region T) :=
  m.map (fun e => ⟨max e.start 0, min e.stop (U64LIMIT - 1) - max e.start 0, e.tag⟩)

/-- The tag the map holds at a byte offset: the tag of the run containing
the offset (`none` when no run covers it). -/
def tagAt (m : TaggedRange T) (off : Nat) : Option T :=
  match m.find? (fun e => e.start ≤ off ∧ off < e.stop) with
  | some e => some e.tag
  | none => none

/-- The tag the map *reports* at a byte offset through its query API: the
tag of the run `iter_range(off..off+1)` yields, if any. -/
def reportedTag (m : TaggedRange T) (off : Nat) : Option T :=
  match iterRange m off (off + 1) with
  | e :: _ => some e.tag
  | [] => none

/-- Runs are disjoint and in ascending order: each ends at or before the
next begins. -/
def Disj (a b : Region T) : Prop := a.stop ≤ b.start

/-- Well-formedness of the entry list: pairwise ordered-disjoint runs of
positive length (the `BTreeMap` representation invariant). -/
def WF (m : TaggedRange T) : Prop :=
  m.Pairwise Disj ∧ ∀ e ∈ m, 0 < e.length

/-- No two list-adjacent runs touch with equal tags. -/
def Coalesced (m : TaggedRange T) : Prop :=
  m.Chain' (fun a b => a.stop = b.start → a.tag ≠ b.tag)

/-- The maps constructible through the `TaggedRange` API: `new()` followed
by any sequence of `put`s with well-ordered ranges. -/
inductive Reachable [DecidableEq T] : TaggedRange T → Prop where
  | nil : Reachable []
  | step {m : TaggedRange T} {lo hi : Nat} {t : T} :
      Reachable m → lo ≤ hi → Reachable (put m lo hi t)

/-- Run a sequence of `put`s against a fresh (`new()`) map. -/
def buildMap [DecidableEq T] (ops : List (Nat × Nat × T)) : TaggedRange T :=
  ops.foldl (fun m op => put m op.1 op.2.1 op.2.2) []

/-- The tag of the most recent operation in `ops` covering `off`. -/
def lastPutTag (ops : List (Nat × Nat × T)) (off : Nat) : Option T :=
  match (ops.filter (fun op => op.1 ≤ off ∧ off < op.2.1)).getLast? with
  | some op => some op.2.2
  | none => none

/-! ## Read splitting (src/main.rs: `ReadIter`, `range_to_reads`)

`ReadIter::next` emits `start..read_end` with
`read_end = min(((start + pbs) / pbs) * pbs, end)` and advances `start`.
The whole iterator is embedded as the list of emitted ranges.  (With
`pbs = 0` the source would divide by zero and panic; the guard below keeps
the definition total, and every theorem assumes `0 < pbs`.) -/

/-- The ranges emitted by `ReadIter` from state `(start, e, pbs)`. -/
def readRuns (start e pbs : Nat) : List (Nat × Nat) :=
  if h : 0 < pbs ∧ start < e then
    let readEnd := min ((start + pbs) / pbs * pbs) e
    (start, readEnd) :: readRuns readEnd e pbs
  else []
termination_by e - start
decreasing_by
  have hpbs : 0 < pbs := h.1
  have hlt : start < e := h.2
  have hstep : start < (start + pbs) / pbs * pbs := by
    have hdiv : (start + pbs) / pbs = start / pbs + 1 := Nat.add_div_right start hpbs
    have hmod := Nat.div_add_mod start pbs
    have hm : start % pbs < pbs := Nat.mod_lt _ hpbs
    calc start < pbs * (start / pbs) + pbs := by omega
    _ = (start / pbs + 1) * pbs := by ring
    _ = (start + pbs) / pbs * pbs := by rw [hdiv]
  simp only [min_def]
  split <;> omega

/-- `range_to_reads`: snap the run's start down and its end up to sector
boundaries, clamp the end to the device size, then split into
physical-block-bounded reads.  (The source asserts
`physical_block_size % sector_size == 0`.) -/
def rangeToReads (rStart rEnd ss pbs sizeBytes : Nat) : List (Nat × Nat) :=
  let start := rStart / ss * ss
  let e := min ((rEnd + ss - 1) / ss * ss) sizeBytes
  readRuns start e pbs

/-! ## Map file (src/map_file.rs) -/

/-- The `MapFile` record. -/
structure MapFile where
  pos : Nat
  status : Phase
  pass : Nat
  size_bytes : Nat
  sector_states : TaggedRange SectorState

/-- An uppercase hexadecimal digit (`{:X}` formatting). -/
def hexChar (n : Nat) : Char :=
  if n < 10 then Char.ofNat (48 + n) else Char.ofNat (55 + n)

/-- The uppercase hexadecimal digits of `n`, most significant first. -/
def toHexDigits (n : Nat) : List Char :=
  if n < 16 then [hexChar n]
  else toHexDigits (n / 16) ++ [hexChar (n % 16)]
decreasing_by exact Nat.div_lt_self (by omega) (by omega)

/-- `format!("0x{:08X}", n)`: `0x` prefix, digits zero-padded to width 8. -/
def hexPad8 (n : Nat) : List Char :=
  let ds := toHexDigits n
  '0' :: 'x' :: (List.replicate (8 - ds.length) '0' ++ ds)

/-- A decimal digit. -/
def decChar (n : Nat) : Char := Char.ofNat (48 + n)

/-- The decimal digits of `n`, most significant first (`{}` formatting). -/
def toDecDigits (n : Nat) : List Char :=
  if n < 10 then [decChar n]
  else toDecDigits (n / 10) ++ [decChar (n % 10)]
decreasing_by exact Nat.div_lt_self (by omega) (by omega)

/-- The status line `write_to_stream` emits:
`"0x{:08X}     {}     {}"` of `pos`, the phase character and `pass`. -/
def statusLineOf (m : MapFile) : List Char :=
  hexPad8 m.pos ++ List.replicate 5 ' ' ++ [m.status.asChar]
    ++ List.replicate 5 ' ' ++ toDecDigits m.pass

/-- A region line `write_to_stream` emits:
`"0x{:08X}  0x{:08X}  {}"` of start, length and the state character. -/
def regionLineOf (r : Region SectorState) : List Char :=
  hexPad8 r.start ++ [' ', ' '] ++ hexPad8 r.length ++ [' ', ' '] ++ [r.tag.asChar]

/-- `MapFile::write_to_stream` as the list of lines written: the status
line, then one region line per run of `self.sector_states.into_iter()`. -/
def writeToLines (m : MapFile) : List (List Char) :=
  statusLineOf m :: (iterAll m.sector_states).map regionLineOf

/-- `char::is_digit(16)`, the class accepted by `combine`'s `hex_digit`. -/
def isHexDigitChar (c : Char) : Bool :=
  c.isDigit || ('a' ≤ c && c ≤ 'f') || ('A' ≤ c && c ≤ 'F')

/-- Value of a hexadecimal digit. -/
def hexVal (c : Char) : Nat :=
  if c.isDigit then c.toNat - 48
  else if 'a' ≤ c && c ≤ 'f' then c.toNat - 87
  else if 'A' ≤ c && c ≤ 'F' then c.toNat - 55
  else 0

/-- `MapFile::parse_hex_value`: the literal `0x`, then one or more hex
digits (maximal munch), valued by `u64::from_str_radix(_, 16)` — which
fails on overflow past `u64`. -/
def pHexValue (cs : List Char) : Option (Nat × List Char) :=
  match cs with
  | '0' :: 'x' :: rest =>
    let ds := rest.takeWhile isHexDigitChar
    if ds.isEmpty then none
    else
      let v := ds.foldl (fun a c => a * 16 + hexVal c) 0
      if v < U64LIMIT then some (v, rest.dropWhile isHexDigitChar) else none
  | _ => none

/-- `skip_many1(space())`: consume one or more whitespace characters. -/
def pSpaces1 (cs : List Char) : Option (List Char) :=
  if (cs.takeWhile Char.isWhitespace).isEmpty then none
  else some (cs.dropWhile Char.isWhitespace)

/-- `any()`: consume one character. -/
def pAny (cs : List Char) : Option (Char × List Char) :=
  match cs with
  | c :: rest => some (c, rest)
  | [] => none

/-- `many1(digit())` valued by `usize::from_str` (64-bit target, so the
same overflow bound as `u64`). -/
def pDecimal (cs : List Char) : Option (Nat × List Char) :=
  let ds := cs.takeWhile Char.isDigit
  if ds.isEmpty then none
  else
    let v := ds.foldl (fun a c => a * 10 + (c.toNat - 48)) 0
    if v < U64LIMIT then some (v, cs.dropWhile Char.isDigit) else none

/-- The status-line parser of `read_from_stream`:
`(parse_hex_value, skip_many1(space), any().and_then(Phase::from_char),
skip_many1(space), many1(digit).and_then(usize::from_str))`.
`Parser::parse` ignores any unconsumed suffix. -/
def parseStatusLine (cs : List Char) : Option (Nat × Phase × Nat) := do
  let (pos, cs) ← pHexValue cs
  let cs ← pSpaces1 cs
  let (c, cs) ← pAny cs
  let ph ← (Phase.fromChar c).toOption
  let cs ← pSpaces1 cs
  let (pass, _) ← pDecimal cs
  return (pos, ph, pass)

/-- The region-line parser of `read_from_stream`:
`(parse_hex_value, skip_many1(space), parse_hex_value, skip_many1(space),
any().and_then(SectorState::from_char))`. -/
def parseRegionLine (cs : List Char) : Option (Nat × Nat × SectorState) := do
  let (s, cs) ← pHexValue cs
  let cs ← pSpaces1 cs
  let (l, cs) ← pHexValue cs
  let cs ← pSpaces1 cs
  let (c, _) ← pAny cs
  let st ← (SectorState.fromChar c).toOption
  return (s, l, st)

/-- The line loop of `MapFile::read_from_stream`: skip `#` comments; parse
the first remaining line as the status line and all later ones as region
lines, `put`ting each region and tracking `size_bytes = max(start+len)`.
The final `pos.unwrap()` (a panic on input with no status line) is the
`"missing status line"` error case. -/
def readLoop : List (List Char) → Bool → Option Nat → Option Phase → Option Nat →
    TaggedRange SectorState → Nat → Except String MapFile
  | [], _, pos, status, pass, ss, sz =>
    match pos, status, pass with
    | some p, some st, some pa =>
      .ok { pos := p, status := st, pass := pa, size_bytes := sz, sector_states := ss }
    | _, _, _ => .error "missing status line"
  | line :: rest, readState, pos, status, pass, ss, sz =>
    if line.head? = some '#' then readLoop rest readState pos status pass ss sz
    else if readState then
      match parseRegionLine line with
      | some (s, l, st) =>
        readLoop rest readState pos status pass (put ss s (s + l) st) (max sz (s + l))
      | none => .error "parse"
    else
      match parseStatusLine line with
      | some (p, ph, pa) => readLoop rest true (some p) (some ph) (some pa) ss sz
      | none => .error "parse"

/-- `MapFile::read_from_stream`, over the line list of the input. -/
def readFromLines (lines : List (List Char)) : Except String MapFile :=
  readLoop lines false none none none [] 0

/-- `MapFile::new`. -/
def MapFile.new (size : Nat) : MapFile :=
  { pos := 0, status := .Copying, pass := 1, size_bytes := size,
    sector_states := put [] 0 size .Untried }

/-- `MapFile::get_histogram`: fold the runs of `iter()` into per-state
byte totals (a `HashMap` read back with default 0, embedded as a
function). -/
def getHistogram (m : TaggedRange SectorState) : SectorState → Nat :=
  (iterAll m).foldl (fun h r => fun s => if s = r.tag then h s + r.length else h s)
    (fun _ => 0)

/-! ## Atomic map-file write (src/map_file.rs: `write_to_path`)

`write_to_path` clones the destination path, calls
`PathBuf::set_extension("ddarescue-tmp")` on the clone, writes the new
contents there and renames the temporary onto the destination.  A path's
final component (its file name) is embedded as a character list;
`set_extension` only ever rewrites that component. -/

/-- `Path::file_stem` on a file name: everything before the final `.`,
except that a name with no `.`, or whose only `.` is its first character,
is its own stem. -/
def fileStemChars (name : List Char) : List Char :=
  let rev := name.reverse
  match rev.dropWhile (fun c => c ≠ '.') with
  | [] => name
  | _ :: revStem => if revStem.isEmpty then name else revStem.reverse

/-- `PathBuf::set_extension ext` (for nonempty `ext`) on a file name:
the stem followed by `.` and the new extension. -/
def setExtensionChars (name ext : List Char) : List Char :=
  fileStemChars name ++ '.' :: ext

/-- The temporary file name `write_to_path` writes to:
`path.set_extension("ddarescue-tmp")`. -/
def writeToPathTmpName (path : List Char) : List Char :=
  setExtensionChars path ("ddarescue-tmp".toList)

/-- The file-system trace of `write_to_path`: which name is written, and
the rename performed afterwards. -/
structure AtomicWriteTrace where
  tmpWritten : List Char
  renameFrom : List Char
  renameTo : List Char
deriving DecidableEq, Repr

/-- `MapFile::write_to_path` as its file-system trace: write the new
contents to the temporary name, then rename it onto the destination. -/
def writeToPathTrace (path : List Char) : AtomicWriteTrace :=
  { tmpWritten := writeToPathTmpName path
    renameFrom := writeToPathTmpName path
    renameTo := path }

/-! ## AIO submission slots (src/block.rs) -/

/-- `MAX_EVENTS`. -/
def MAX_EVENTS : Nat := 32

/-- The slot bookkeeping of `BlockDevice`: the `bool` of each
`(bool, iocb)` element of `iocbs`, and the keys of the `requests` map. -/
structure BlockDev where
  iocbsUsed : List Bool
  requests : List Nat
deriving DecidableEq, Repr

/-- A freshly opened device: `MAX_EVENTS` free slots, no requests. -/
def BlockDev.fresh : BlockDev :=
  { iocbsUsed := List.replicate MAX_EVENTS false, requests := [] }

/-- `BlockDevice::requests_avail`: the number of free slots. -/
def requestsAvail (d : BlockDev) : Nat :=
  (d.iocbsUsed.filter (fun b => !b)).length

/-- `BlockDevice::requests_pending`: the number of used slots. -/
def requestsPending (d : BlockDev) : Nat :=
  (d.iocbsUsed.filter (fun b => b)).length

/-- `BlockDevice::find_slot`: the first free slot (the source panics when
none exists; `none` stands for that panic). -/
def findSlot (flags : List Bool) : Option Nat :=
  flags.findIdx? (fun b => !b)

/-- `BlockDevice::submit_request`, with the kernel's `io_submit` return
value supplied as `kres` (negative means `-errno`).  The source sets
`iocb.0 = true` before submitting; on failure it returns the error with
the flag still set, and only on success records the slot in `requests`.
Result: `none` models the free-slot assertion/panic; otherwise the new
device state paired with `some errno` (failure) or `none` (success). -/
def submitRequest (d : BlockDev) (kres : Int) : Option (BlockDev × Option Int) :=
  match findSlot d.iocbsUsed with
  | none => none
  | some slot =>
    let d1 : BlockDev := { d with iocbsUsed := d.iocbsUsed.set slot true }
    if kres < 0 then some (d1, some (-kres))
    else some ({ d1 with requests := d1.requests ++ [slot] }, none)

/-! ## Applying a completion (src/main.rs: `try_drain_request`) -/

/-- A completed `Request`: byte offset, byte size, kernel result
(`isize`: positive byte count or negated errno) and the buffer bytes. -/
structure Req where
  offset : Nat
  size : Nat
  result : Int
  buffer : List Nat

/-- `Request::get_data`: the first `result` bytes of the buffer, empty on
a negative result. -/
def Req.getData (r : Req) : List Nat :=
  if r.result < 0 then [] else r.buffer.take r.result.toNat

/-- `Request::is_data_zeros`. -/
def Req.isDataZeros (r : Req) : Bool :=
  r.getData.all (fun c => c = 0)

/-- The destination file contents after `seek(offset)` +
`write_all(data)`. -/
def writeBytes (dest : Nat → Nat) (off : Nat) (data : List Nat) : Nat → Nat :=
  fun a => if off ≤ a ∧ a < off + data.length then data.getD (a - off) 0 else dest a

/-- The engine state a completion acts on: the map's runs, the cached
histogram and the destination file contents. -/
structure EngineState where
  mapRuns : TaggedRange SectorState
  histogram : SectorState → Nat
  dest : Nat → Nat

/-- `Recover::update_histogram`: move `bytes` from the `f` bucket to the
`t` bucket.  (The buckets are `u64`; the subtraction here is `Nat`
truncation, and every theorem about it supplies `bytes ≤ h f` so the two
agree — the source would panic in debug builds otherwise.) -/
def updateHistogram (h : SectorState → Nat) (bytes : Nat) (f t : SectorState) :
    SectorState → Nat :=
  let h1 := fun s => if s = f then h s - bytes else h s
  fun s => if s = t then h1 s + bytes else h1 s

/-- The completion-applying body of `Recover::try_drain_request`: on a
positive result write the non-zero data to the destination, tag the read
bytes `Rescued` and move them in the histogram; otherwise tag the whole
request `Bad` and move it in the histogram. -/
def applyCompletion (st : EngineState) (t : SectorState) (r : Req) : EngineState :=
  if 0 < r.result then
    { mapRuns := put st.mapRuns r.offset (r.offset + r.result.toNat) .Rescued
      histogram := updateHistogram st.histogram r.result.toNat t .Rescued
      dest := if r.isDataZeros then st.dest else writeBytes st.dest r.offset r.getData }
  else
    { mapRuns := put st.mapRuns r.offset (r.offset + r.size) .Bad
      histogram := updateHistogram st.histogram r.size t .Bad
      dest := st.dest }

/-! ## Theorems -/


/-- Arithmetic step: the next physical-block boundary lies strictly past
`start`. -/
theorem lt_next_block {pbs : Nat} (hpbs : 0 < pbs) (start : Nat) :
    start < (start + pbs) / pbs * pbs := by
  have hdiv : (start + pbs) / pbs = start / pbs + 1 := Nat.add_div_right start hpbs
  have hmod := Nat.div_add_mod start pbs
  have hm : start % pbs < pbs := Nat.mod_lt _ hpbs
  calc start < pbs * (start / pbs) + pbs := by omega
  _ = (start / pbs + 1) * pbs := by ring
  _ = (start + pbs) / pbs * pbs := by rw [hdiv]

/-- Members of `readRuns`: each emitted read is nonempty, lies within
`[start, e)`, stops at the next block boundary or at `e`, and starts at
the initial position or on a block boundary. -/
theorem readRuns_mem {pbs : Nat} (hpbs : 0 < pbs) :
    ∀ start e : Nat, ∀ r ∈ readRuns start e pbs,
      start ≤ r.1 ∧ r.1 < r.2 ∧ r.2 ≤ e ∧
      r.2 = min ((r.1 + pbs) / pbs * pbs) e ∧ (r.1 = start ∨ pbs ∣ r.1) := by
  intro start e
  induction start, e, pbs using readRuns.induct with
  | case1 start e pbs h readEnd ih =>
    intro r hr
    rw [readRuns, dif_pos h] at hr
    have hstep := lt_next_block h.1 start
    have hse : start < readEnd := by
      simp only [readEnd, min_def]; split <;> omega
    rcases List.mem_cons.mp hr with hhead | htail
    · subst hhead
      exact ⟨le_refl _, hse, min_le_right _ _, rfl, Or.inl rfl⟩
    · have ihr := ih h.1 r htail
      refine ⟨by omega, ihr.2.1, ihr.2.2.1, ihr.2.2.2.1, ?_⟩
      rcases ihr.2.2.2.2 with heq | hd
      · by_cases hcase : (start + pbs) / pbs * pbs ≤ e
        · right
          have hre2 : readEnd = (start + pbs) / pbs * pbs := min_eq_left hcase
          rw [heq, hre2]
          exact ⟨(start + pbs) / pbs, by ring⟩
        · exfalso
          rw [show (start + pbs) / pbs * pbs ⊓ e = e from min_eq_right (by omega)] at htail
          rw [readRuns] at htail
          simp at htail
      · exact Or.inr hd
  | case2 start e pbs h =>
    intro r hr
    rw [readRuns, dif_neg h] at hr
    simp at hr

/-- Coverage of `readRuns`: the emitted ranges tile `[start, e)` exactly. -/
theorem readRuns_cover {pbs : Nat} (hpbs : 0 < pbs) :
    ∀ start e off : Nat,
      (∃ r ∈ readRuns start e pbs, r.1 ≤ off ∧ off < r.2) ↔ (start ≤ off ∧ off < e) := by
  intro start e
  induction start, e, pbs using readRuns.induct with
  | case1 start e pbs h readEnd ih =>
    intro off
    rw [readRuns, dif_pos h]
    have hstep := lt_next_block h.1 start
    have hse : start < readEnd := by
      simp only [readEnd, min_def]; split <;> omega
    have hre : readEnd ≤ e := min_le_right _ _
    constructor
    · rintro ⟨r, hr, hlo, hhi⟩
      rcases List.mem_cons.mp hr with hhead | htail
      · subst hhead
        exact ⟨hlo, by omega⟩
      · have := (ih h.1 off).mp ⟨r, htail, hlo, hhi⟩
        exact ⟨by omega, this.2⟩
    · rintro ⟨hlo, hhi⟩
      by_cases hcase : off < readEnd
      · exact ⟨(start, readEnd), List.mem_cons_self _ _, hlo, hcase⟩
      · have := (ih h.1 off).mpr ⟨by omega, hhi⟩
        rcases this with ⟨r, hr, h1, h2⟩
        exact ⟨r, List.mem_cons_of_mem _ hr, h1, h2⟩
  | case2 start e pbs h =>
    intro off
    rw [readRuns, dif_neg h]
    simp
    omega


/-- C4: for every input run `[lo, hi)` and device geometry with
`physical_block_size % sector_size == 0` (and positive sizes, as on real
hardware), every read emitted by `range_to_reads` lies wholly within one
physical block, starts on a sector boundary, ends on a sector boundary or
exactly at `size_bytes`, and the union of the emitted reads is exactly
the sector-aligned expansion of the run clamped to `size_bytes`. -/
theorem c4_read_splitting (lo hi ss pbs size : Nat) (hss : 0 < ss) (hpbs : 0 < pbs)
    (hdvd : pbs % ss = 0) :
    (∀ r ∈ rangeToReads lo hi ss pbs size,
        r.1 / pbs * pbs ≤ r.1 ∧ r.2 ≤ (r.1 / pbs + 1) * pbs ∧
        ss ∣ r.1 ∧ (ss ∣ r.2 ∨ r.2 = size)) ∧
    (∀ off, (∃ r ∈ rangeToReads lo hi ss pbs size, r.1 ≤ off ∧ off < r.2) ↔
        (lo / ss * ss ≤ off ∧ off < min ((hi + ss - 1) / ss * ss) size)) := by
  have hssd : ss ∣ pbs := Nat.dvd_of_mod_eq_zero hdvd
  constructor
  · intro r hr
    have hm := readRuns_mem hpbs (lo / ss * ss) (min ((hi + ss - 1) / ss * ss) size) r hr
    obtain ⟨hstart, hlt, hle, hstop, halign⟩ := hm
    refine ⟨Nat.div_mul_le_self _ _, ?_, ?_, ?_⟩
    · rw [hstop, Nat.add_div_right _ hpbs]
      exact min_le_left _ _
    · rcases halign with heq | hd
      · rw [heq]; exact ⟨lo / ss, by ring⟩
      · exact dvd_trans hssd hd
    · rw [hstop]
      rcases le_or_lt ((r.1 + pbs) / pbs * pbs) (min ((hi + ss - 1) / ss * ss) size) with hc | hc
      · left
        rw [min_eq_left hc, Nat.add_div_right _ hpbs]
        exact dvd_trans hssd ⟨r.1 / pbs + 1, by ring⟩
      · rw [min_eq_right (le_of_lt hc)]
        rcases le_or_lt ((hi + ss - 1) / ss * ss) size with hc2 | hc2
        · left
          rw [min_eq_left hc2]
          exact ⟨(hi + ss - 1) / ss, by ring⟩
        · right
          rw [min_eq_right (le_of_lt hc2)]
  · intro off
    exact readRuns_cover hpbs (lo / ss * ss) (min ((hi + ss - 1) / ss * ss) size) off

/-- C4 (witness): the geometry `sector_size = 512`,
`physical_block_size = 4096`, `size_bytes = 8192` and the run
`[100, 700)`, whose single emitted read is `[0, 1024)`. -/
theorem c4_read_splitting_witness :
    rangeToReads 100 700 512 4096 8192 = [(0, 1024)] ∧
    (512 ∣ (0 : Nat) ∧ (512 ∣ (1024 : Nat) ∨ (1024 : Nat) = 8192)) ∧
    ((∃ r ∈ rangeToReads 100 700 512 4096 8192, r.1 ≤ 700 ∧ 700 < r.2) ↔
        (100 / 512 * 512 ≤ 700 ∧ 700 < min ((700 + 512 - 1) / 512 * 512) 8192)) := by
  have heval : rangeToReads 100 700 512 4096 8192 = [(0, 1024)] := by
    show readRuns (100 / 512 * 512) (min ((700 + 512 - 1) / 512 * 512) 8192) 4096 = _
    norm_num
    rw [readRuns, dif_pos (by norm_num : (0:Nat) < 4096 ∧ (0:Nat) < 1024)]
    norm_num
    rw [readRuns, dif_neg (by norm_num : ¬((0:Nat) < 4096 ∧ (1024:Nat) < 1024))]
  have h := c4_read_splitting 100 700 512 4096 8192 (by decide) (by decide) (by decide)
  refine ⟨heval, ?_, h.2 700⟩
  have hm := h.1 (0, 1024) (by rw [heval]; exact List.mem_singleton.mpr rfl)
  exact ⟨hm.2.2.1, hm.2.2.2⟩


/-! ### Line-format and parser lemmas -/


/-! ### Character and digit-list facts for the line parsers -/

theorem decChar_props {m : Nat} (hm : m < 10) :
    (decChar m).isDigit = true ∧ isHexDigitChar (decChar m) = true ∧
    (decChar m).isWhitespace = false ∧ (decChar m).toNat - 48 = m ∧ hexVal (decChar m) = m := by
  interval_cases m <;> decide

theorem hexChar_props {m : Nat} (hm : m < 16) :
    isHexDigitChar (hexChar m) = true ∧ (hexChar m).isWhitespace = false ∧
    hexVal (hexChar m) = m := by
  interval_cases m <;> decide

theorem takeWhile_app {α : Type} {p : α → Bool} {xs ys : List α}
    (h : ∀ x ∈ xs, p x = true) :
    (xs ++ ys).takeWhile p = xs ++ ys.takeWhile p := by
  induction xs with
  | nil => rfl
  | cons a t ih =>
    have ha : p a = true := h a (List.mem_cons_self _ _)
    simp only [List.cons_append, List.takeWhile_cons, ha, if_true]
    rw [ih (fun x hx => h x (List.mem_cons_of_mem _ hx))]

theorem dropWhile_app {α : Type} {p : α → Bool} {xs ys : List α}
    (h : ∀ x ∈ xs, p x = true) :
    (xs ++ ys).dropWhile p = ys.dropWhile p := by
  induction xs with
  | nil => rfl
  | cons a t ih =>
    have ha : p a = true := h a (List.mem_cons_self _ _)
    simp only [List.cons_append, List.dropWhile_cons, ha, if_true]
    exact ih (fun x hx => h x (List.mem_cons_of_mem _ hx))

theorem takeWhile_head_false {α : Type} {p : α → Bool} {ys : List α}
    (h : ∀ c, ys.head? = some c → p c = false) :
    ys.takeWhile p = [] := by
  cases ys with
  | nil => rfl
  | cons a t => simp [List.takeWhile_cons, h a rfl]

theorem dropWhile_head_false {α : Type} {p : α → Bool} {ys : List α}
    (h : ∀ c, ys.head? = some c → p c = false) :
    ys.dropWhile p = ys := by
  cases ys with
  | nil => rfl
  | cons a t => simp [List.dropWhile_cons, h a rfl]

theorem toHexDigits_all_hex : ∀ n : Nat, ∀ c ∈ toHexDigits n, isHexDigitChar c = true := by
  intro n
  induction n using toHexDigits.induct with
  | case1 n h =>
    intro c hc
    rw [toHexDigits, if_pos h] at hc
    rcases List.mem_singleton.mp hc with rfl
    exact (hexChar_props h).1
  | case2 n h ih =>
    intro c hc
    rw [toHexDigits, if_neg h] at hc
    rcases List.mem_append.mp hc with h1 | h1
    · exact ih c h1
    · rcases List.mem_singleton.mp h1 with rfl
      exact (hexChar_props (Nat.mod_lt _ (by omega))).1

theorem toHexDigits_ne_nil (n : Nat) : toHexDigits n ≠ [] := by
  induction n using toHexDigits.induct with
  | case1 n h => rw [toHexDigits, if_pos h]; simp
  | case2 n h ih => rw [toHexDigits, if_neg h]; simp

theorem toDecDigits_all_digit : ∀ n : Nat, ∀ c ∈ toDecDigits n, c.isDigit = true := by
  intro n
  induction n using toDecDigits.induct with
  | case1 n h =>
    intro c hc
    rw [toDecDigits, if_pos h] at hc
    rcases List.mem_singleton.mp hc with rfl
    exact (decChar_props h).1
  | case2 n h ih =>
    intro c hc
    rw [toDecDigits, if_neg h] at hc
    rcases List.mem_append.mp hc with h1 | h1
    · exact ih c h1
    · rcases List.mem_singleton.mp h1 with rfl
      exact (decChar_props (Nat.mod_lt _ (by omega))).1

theorem toDecDigits_ne_nil (n : Nat) : toDecDigits n ≠ [] := by
  induction n using toDecDigits.induct with
  | case1 n h => rw [toDecDigits, if_pos h]; simp
  | case2 n h ih => rw [toDecDigits, if_neg h]; simp

theorem hexFold_toHexDigits (n : Nat) :
    ∀ a : Nat, (toHexDigits n).foldl (fun a c => a * 16 + hexVal c) a
      = a * 16 ^ (toHexDigits n).length + n := by
  induction n using toHexDigits.induct with
  | case1 n h =>
    intro a
    rw [toHexDigits, if_pos h]
    simp [(hexChar_props h).2.2]
  | case2 n h ih =>
    intro a
    rw [toHexDigits, if_neg h]
    rw [List.foldl_append, ih a]
    have hm : n % 16 < 16 := Nat.mod_lt _ (by omega)
    simp only [List.foldl_cons, List.foldl_nil, List.length_append, List.length_singleton,
      (hexChar_props hm).2.2]
    have := Nat.div_add_mod n 16
    rw [pow_succ]
    ring_nf
    omega

theorem hexFold_zeros (k : Nat) :
    ∀ ds : List Char, (List.replicate k '0' ++ ds).foldl (fun a c => a * 16 + hexVal c) 0
      = ds.foldl (fun a c => a * 16 + hexVal c) 0 := by
  induction k with
  | zero => intro ds; rfl
  | succ k ih =>
    intro ds
    simp only [List.replicate_succ, List.cons_append, List.foldl_cons]
    have : (0 : Nat) * 16 + hexVal '0' = 0 := by decide
    rw [this]
    exact ih ds

theorem decFold_toDecDigits (n : Nat) :
    ∀ a : Nat, (toDecDigits n).foldl (fun a c => a * 10 + (c.toNat - 48)) a
      = a * 10 ^ (toDecDigits n).length + n := by
  induction n using toDecDigits.induct with
  | case1 n h =>
    intro a
    rw [toDecDigits, if_pos h]
    simp [(decChar_props h).2.2.2.1]
  | case2 n h ih =>
    intro a
    rw [toDecDigits, if_neg h]
    rw [List.foldl_append, ih a]
    have hm : n % 10 < 10 := Nat.mod_lt _ (by omega)
    simp only [List.foldl_cons, List.foldl_nil, List.length_append, List.length_singleton,
      (decChar_props hm).2.2.2.1]
    have := Nat.div_add_mod n 10
    rw [pow_succ]
    ring_nf
    omega



theorem hexDigit_not_ws {c : Char} (h : isHexDigitChar c = true) : c.isWhitespace = false := by
  by_contra hws
  rw [Bool.not_eq_false] at hws
  simp only [Char.isWhitespace, Bool.or_eq_true, decide_eq_true_eq] at hws
  rcases hws with ((rfl | rfl) | rfl) | rfl <;> exact absurd h (by decide)

theorem digit_not_ws {c : Char} (h : c.isDigit = true) : c.isWhitespace = false :=
  hexDigit_not_ws (by simp [isHexDigitChar, h])

/-- `parse_hex_value` applied to the formatted field followed by anything
that does not begin with a hex digit. -/
theorem pHexValue_format {n : Nat} (hn : n < U64LIMIT) {rest : List Char}
    (hrest : ∀ c, rest.head? = some c → isHexDigitChar c = false) :
    pHexValue (hexPad8 n ++ rest) = some (n, rest) := by
  have hall : ∀ c ∈ List.replicate (8 - (toHexDigits n).length) '0' ++ toHexDigits n,
      isHexDigitChar c = true := by
    intro c hc
    rcases List.mem_append.mp hc with h1 | h1
    · rcases List.eq_of_mem_replicate h1 with rfl
      decide
    · exact toHexDigits_all_hex n c h1
  show pHexValue ('0' :: 'x' :: ((List.replicate (8 - (toHexDigits n).length) '0'
      ++ toHexDigits n) ++ rest)) = some (n, rest)
  simp only [pHexValue]
  rw [takeWhile_app hall, dropWhile_app hall]
  rw [takeWhile_head_false hrest, dropWhile_head_false hrest]
  rw [List.append_nil]
  have hne : (List.replicate (8 - (toHexDigits n).length) '0' ++ toHexDigits n).isEmpty = false := by
    cases hcase : List.replicate (8 - (toHexDigits n).length) '0' ++ toHexDigits n with
    | nil =>
      exact absurd (List.append_eq_nil.mp hcase).2 (toHexDigits_ne_nil n)
    | cons a t => rfl
  rw [hne]
  have hval : (List.replicate (8 - (toHexDigits n).length) '0'
      ++ toHexDigits n).foldl (fun a c => a * 16 + hexVal c) 0 = n := by
    rw [hexFold_zeros, hexFold_toHexDigits]
    simp
  rw [hval]
  simp [hn]

/-- `skip_many1(space())` applied to spaces followed by anything that does
not begin with whitespace. -/
theorem pSpaces1_format {k : Nat} (hk : 0 < k) {rest : List Char}
    (hrest : ∀ c, rest.head? = some c → c.isWhitespace = false) :
    pSpaces1 (List.replicate k ' ' ++ rest) = some rest := by
  have hall : ∀ c ∈ List.replicate k ' ', c.isWhitespace = true := by
    intro c hc
    rcases List.eq_of_mem_replicate hc with rfl
    decide
  rw [pSpaces1]
  rw [takeWhile_app hall, dropWhile_app hall]
  rw [takeWhile_head_false hrest, dropWhile_head_false hrest]
  rw [List.append_nil]
  have hne : (List.replicate k ' ').isEmpty = false := by
    cases k with
    | zero => omega
    | succ k => rfl
  rw [hne]
  simp

/-- `many1(digit())` + `usize::from_str` applied to the formatted field
followed by anything that does not begin with a digit. -/
theorem pDecimal_format {n : Nat} (hn : n < U64LIMIT) {rest : List Char}
    (hrest : ∀ c, rest.head? = some c → c.isDigit = false) :
    pDecimal (toDecDigits n ++ rest) = some (n, rest) := by
  have hall : ∀ c ∈ toDecDigits n, c.isDigit = true := toDecDigits_all_digit n
  rw [pDecimal]
  rw [takeWhile_app hall, dropWhile_app hall]
  rw [takeWhile_head_false hrest, dropWhile_head_false hrest]
  rw [List.append_nil]
  have hne : (toDecDigits n).isEmpty = false := by
    cases hcase : toDecDigits n with
    | nil => exact absurd hcase (toDecDigits_ne_nil n)
    | cons a t => rfl
  rw [hne]
  have hval : (toDecDigits n).foldl (fun a c => a * 10 + (c.toNat - 48)) 0 = n := by
    rw [decFold_toDecDigits]
    simp
  rw [hval]
  simp [hn]



theorem phase_asChar_not_ws (p : Phase) : (Phase.asChar p).isWhitespace = false := by
  cases p <;> decide

theorem phase_fromChar_asChar {p : Phase} (hp : p ∈ Phase.values) :
    Phase.fromChar p.asChar = .ok p := by
  cases p
  case Filling => exfalso; revert hp; decide
  case Generating => exfalso; revert hp; decide
  all_goals rfl

theorem sector_fromChar_asChar (s : SectorState) :
    SectorState.fromChar s.asChar = .ok s := by
  cases s <;> rfl

theorem head?_replicate_append {α : Type} {k : Nat} (hk : 0 < k) (c : α) (ys : List α) :
    (List.replicate k c ++ ys).head? = some c := by
  cases k with
  | zero => omega
  | succ k => rfl

/-- The status-line parser accepts exactly what `write_to_stream` emits
when the phase is one of the five parsable ones. -/
theorem parseStatusLine_format {pos pass : Nat} (hpos : pos < U64LIMIT)
    (hpass : pass < U64LIMIT) {p : Phase} (hp : p ∈ Phase.values) (k1 k2 : Nat)
    (hk1 : 0 < k1) (hk2 : 0 < k2) :
    parseStatusLine (hexPad8 pos ++ List.replicate k1 ' ' ++ [p.asChar]
      ++ List.replicate k2 ' ' ++ toDecDigits pass) = some (pos, p, pass) := by
  have hshape : hexPad8 pos ++ List.replicate k1 ' ' ++ [p.asChar]
      ++ List.replicate k2 ' ' ++ toDecDigits pass
      = hexPad8 pos ++ (List.replicate k1 ' ' ++ ([p.asChar]
        ++ (List.replicate k2 ' ' ++ (toDecDigits pass ++ [])))) := by
    simp [List.append_assoc]
  rw [hshape, parseStatusLine]
  rw [pHexValue_format hpos (fun c hc => by
    rw [head?_replicate_append hk1] at hc
    cases hc; decide)]
  simp only [Option.pure_def, Option.bind_eq_bind, Option.some_bind]
  rw [pSpaces1_format hk1 (fun c hc => by
    rw [List.singleton_append] at hc
    cases hc
    exact phase_asChar_not_ws p)]
  simp only [Option.pure_def, Option.bind_eq_bind, Option.some_bind, List.singleton_append, pAny]
  rw [phase_fromChar_asChar hp]
  simp only [Except.toOption, Option.pure_def, Option.bind_eq_bind, Option.some_bind]
  rw [pSpaces1_format hk2 (fun c hc => by
    rw [List.append_nil] at hc
    cases hdd : toDecDigits pass with
    | nil => exact absurd hdd (toDecDigits_ne_nil pass)
    | cons a t =>
      rw [hdd] at hc
      cases hc
      exact digit_not_ws (toDecDigits_all_digit pass c (by rw [hdd]; exact List.mem_cons_self _ _)))]
  simp only [Option.pure_def, Option.bind_eq_bind, Option.some_bind]
  rw [pDecimal_format hpass (fun c hc => by cases hc)]
  simp only [Option.pure_def, Option.bind_eq_bind, Option.some_bind]



theorem sector_asChar_not_ws (s : SectorState) : (SectorState.asChar s).isWhitespace = false := by
  cases s <;> decide

/-- The status-line parser rejects a line whose phase character
`Phase::from_char` refuses, whatever follows. -/
theorem parseStatusLine_badPhase {pos : Nat} (hpos : pos < U64LIMIT) {p : Phase}
    (hbad : (Phase.fromChar p.asChar).toOption = none) {k1 : Nat} (hk1 : 0 < k1)
    (tail : List Char) :
    parseStatusLine (hexPad8 pos ++ (List.replicate k1 ' ' ++ ([p.asChar] ++ tail))) = none := by
  rw [parseStatusLine]
  rw [pHexValue_format hpos (fun c hc => by
    rw [head?_replicate_append hk1] at hc
    cases hc; decide)]
  simp only [Option.pure_def, Option.bind_eq_bind, Option.some_bind]
  rw [pSpaces1_format hk1 (fun c hc => by
    rw [List.singleton_append] at hc
    cases hc
    exact phase_asChar_not_ws p)]
  simp only [Option.pure_def, Option.bind_eq_bind, Option.some_bind, List.singleton_append, pAny]
  rw [hbad]
  rfl

/-- The status-line parser rejects the legacy (pass-less) status form:
after the phase character the required second run of spaces is missing. -/
theorem parseStatusLine_legacy {pos : Nat} (hpos : pos < U64LIMIT) (p : Phase)
    {k : Nat} (hk : 0 < k) :
    parseStatusLine (hexPad8 pos ++ List.replicate k ' ' ++ [p.asChar]) = none := by
  have hshape : hexPad8 pos ++ List.replicate k ' ' ++ [p.asChar]
      = hexPad8 pos ++ (List.replicate k ' ' ++ ([p.asChar] ++ [])) := by
    simp [List.append_assoc]
  rw [hshape, parseStatusLine]
  rw [pHexValue_format hpos (fun c hc => by
    rw [head?_replicate_append hk] at hc
    cases hc; decide)]
  simp only [Option.pure_def, Option.bind_eq_bind, Option.some_bind]
  rw [pSpaces1_format hk (fun c hc => by
    rw [List.singleton_append] at hc
    cases hc
    exact phase_asChar_not_ws p)]
  simp only [Option.pure_def, Option.bind_eq_bind, Option.some_bind, List.singleton_append, pAny]
  cases hopt : (Phase.fromChar p.asChar).toOption with
  | none => rfl
  | some q =>
    simp only [Option.pure_def, Option.bind_eq_bind, Option.some_bind]
    rfl

/-- The region-line parser accepts exactly what `write_to_stream` emits. -/
theorem parseRegionLine_format {s l : Nat} (hs : s < U64LIMIT) (hl : l < U64LIMIT)
    (st : SectorState) {k1 k2 : Nat} (hk1 : 0 < k1) (hk2 : 0 < k2) :
    parseRegionLine (hexPad8 s ++ List.replicate k1 ' ' ++ hexPad8 l
      ++ List.replicate k2 ' ' ++ [st.asChar]) = some (s, l, st) := by
  have hshape : hexPad8 s ++ List.replicate k1 ' ' ++ hexPad8 l
      ++ List.replicate k2 ' ' ++ [st.asChar]
      = hexPad8 s ++ (List.replicate k1 ' ' ++ (hexPad8 l
        ++ (List.replicate k2 ' ' ++ ([st.asChar] ++ [])))) := by
    simp [List.append_assoc]
  rw [hshape, parseRegionLine]
  rw [pHexValue_format hs (fun c hc => by
    rw [head?_replicate_append hk1] at hc
    cases hc; decide)]
  simp only [Option.pure_def, Option.bind_eq_bind, Option.some_bind]
  rw [pSpaces1_format hk1 (fun c hc => by cases hc; decide)]
  simp only [Option.pure_def, Option.bind_eq_bind, Option.some_bind]
  rw [pHexValue_format hl (fun c hc => by
    rw [head?_replicate_append hk2] at hc
    cases hc; decide)]
  simp only [Option.pure_def, Option.bind_eq_bind, Option.some_bind]
  rw [pSpaces1_format hk2 (fun c hc => by
    rw [List.singleton_append] at hc
    cases hc
    exact sector_asChar_not_ws st)]
  simp only [Option.pure_def, Option.bind_eq_bind, Option.some_bind, List.singleton_append, pAny]
  rw [sector_fromChar_asChar st]
  rfl



theorem head?_hexPad8_append (n : Nat) (X : List Char) :
    (hexPad8 n ++ X).head? = some '0' := rfl

/-- C10: phase serialization round-trips exactly on the five spec phases;
the two extra variants `Filling` and `Generating` serialize to `F` and
`G`, which `Phase::from_char` rejects, and a map file written with either
of those phases cannot be loaded back. -/
theorem c10_phase_round_trip :
    (∀ p ∈ Phase.values, Phase.fromChar p.asChar = Except.ok p) ∧
    Phase.asChar .Filling = 'F' ∧ Phase.asChar .Generating = 'G' ∧
    Phase.fromChar 'F' = Except.error "phase" ∧
    Phase.fromChar 'G' = Except.error "phase" ∧
    (∀ m : MapFile, m.pos < U64LIMIT →
      (m.status = Phase.Filling ∨ m.status = Phase.Generating) →
      readFromLines (writeToLines m) = Except.error "parse") := by
  refine ⟨fun p hp => phase_fromChar_asChar hp, rfl, rfl, rfl, rfl, fun m hpos hbad => ?_⟩
  rw [writeToLines, readFromLines, readLoop]
  have hhead : (statusLineOf m).head? = some '0' := by
    rw [statusLineOf]
    rw [List.append_assoc, List.append_assoc, List.append_assoc]
    exact head?_hexPad8_append _ _
  rw [hhead]
  rw [if_neg (by decide)]
  rw [if_neg (by decide)]
  have hshape : statusLineOf m = hexPad8 m.pos ++ (List.replicate 5 ' '
      ++ ([m.status.asChar] ++ (List.replicate 5 ' ' ++ toDecDigits m.pass))) := by
    rw [statusLineOf]
    simp [List.append_assoc]
  have hbadchar : (Phase.fromChar m.status.asChar).toOption = none := by
    rcases hbad with h | h <;> rw [h] <;> rfl
  rw [hshape, parseStatusLine_badPhase hpos hbadchar (by omega) _]

/-- C5 (counterexample): a well-formed map file whose status line is the
legacy pass-less form `0x00000000     ?` fails to load — the parser
demands the pass field. -/
theorem c5_legacy_form_rejected_concrete :
    readFromLines [("0x00000000     ?".toList), ("0x00000000  0x00000200  ?".toList)]
      = Except.error "parse" := rfl

/-- C5 (amended): `read_from_stream` accepts only the pass-bearing status
form.  For every well-formed status content (`pos` a `u64`, a parsable
phase, any positive space runs), the legacy pass-less line makes loading
fail with a parse error whatever follows, while the same line with the
pass field appended parses. -/
theorem c5_only_pass_bearing_accepted (pos : Nat) (hpos : pos < U64LIMIT) (p : Phase)
    (hp : p ∈ Phase.values) (k : Nat) (hk : 0 < k) (rest : List (List Char)) :
    readFromLines ((hexPad8 pos ++ List.replicate k ' ' ++ [p.asChar]) :: rest)
      = Except.error "parse" ∧
    (∀ pass : Nat, pass < U64LIMIT →
      parseStatusLine (hexPad8 pos ++ List.replicate k ' ' ++ [p.asChar]
        ++ List.replicate k ' ' ++ toDecDigits pass) = some (pos, p, pass)) := by
  constructor
  · rw [readFromLines, readLoop]
    have hhead : (hexPad8 pos ++ List.replicate k ' ' ++ [p.asChar]).head? = some '0' := by
      rw [List.append_assoc]
      exact head?_hexPad8_append _ _
    rw [hhead]
    rw [if_neg (by decide)]
    rw [if_neg (by decide)]
    rw [parseStatusLine_legacy hpos p hk]
  · intro pass hpass
    exact parseStatusLine_format hpos hpass hp k k hk hk

/-- C5 (witness): the amended statement at `pos = 0`, phase `Copying`,
five-space separators: the legacy line `0x00000000     ?` is rejected and
the pass-bearing `0x00000000     ?     1` parses. -/
theorem c5_only_pass_bearing_accepted_witness :
    readFromLines ((hexPad8 0 ++ List.replicate 5 ' ' ++ [Phase.asChar .Copying]) :: [])
      = Except.error "parse" ∧
    parseStatusLine (hexPad8 0 ++ List.replicate 5 ' ' ++ [Phase.asChar .Copying]
      ++ List.replicate 5 ' ' ++ toDecDigits 1) = some (0, Phase.Copying, 1) := by
  have h := c5_only_pass_bearing_accepted 0 (by norm_num [U64LIMIT]) Phase.Copying
    (by decide) 5 (by decide) []
  exact ⟨h.1, h.2 1 (by norm_num [U64LIMIT])⟩

/-- C10 (witness): the round-trip statement applied at phase `Copying`
and at a concrete `Filling` map file, which fails to load. -/
theorem c10_phase_round_trip_witness :
    Phase.fromChar (Phase.asChar .Copying) = Except.ok Phase.Copying ∧
    readFromLines (writeToLines (MapFile.mk 0 Phase.Filling 1 0 []))
      = Except.error "parse" := by
  refine ⟨c10_phase_round_trip.1 Phase.Copying (by decide), ?_⟩
  exact c10_phase_round_trip.2.2.2.2.2 (MapFile.mk 0 Phase.Filling 1 0 [])
    (by norm_num [U64LIMIT]) (Or.inl rfl)

/-- C8 (counterexample): for the destination path `foo.map` the atomic
map-file write does *not* use `foo.map.ddarescue-tmp` — `set_extension`
replaces the `map` extension, giving `foo.ddarescue-tmp`. -/
theorem c8_tmp_name_not_appended :
    writeToPathTmpName ("foo.map".toList) ≠ ("foo.map.ddarescue-tmp").toList ∧
    writeToPathTmpName ("foo.map".toList) = ("foo.ddarescue-tmp").toList := by
  decide

/-- C8 (amended): for every destination path, the atomic map-file write
writes the new contents to the file named by *replacing the path's
extension* with `ddarescue-tmp` (`set_extension`), then renames that
temporary file onto the path; only when the file name has no extension
(its stem is the whole name) does the temporary name equal
`path + ".ddarescue-tmp"`. -/
theorem c8_tmp_name_set_extension (path : List Char) :
    (writeToPathTrace path).tmpWritten = fileStemChars path ++ (".ddarescue-tmp".toList) ∧
    (writeToPathTrace path).renameFrom = (writeToPathTrace path).tmpWritten ∧
    (writeToPathTrace path).renameTo = path ∧
    (fileStemChars path = path →
      (writeToPathTrace path).tmpWritten = path ++ (".ddarescue-tmp".toList)) := by
  refine ⟨rfl, rfl, rfl, fun h => ?_⟩
  show setExtensionChars path _ = _
  rw [setExtensionChars, h]
  rfl

/-- C8 (witness): the amended statement applied at the extensionless path
`foo`, where the temporary name is `foo.ddarescue-tmp`. -/
theorem c8_tmp_name_set_extension_witness :
    (writeToPathTrace ("foo".toList)).tmpWritten
        = fileStemChars ("foo".toList) ++ (".ddarescue-tmp".toList) ∧
    (writeToPathTrace ("foo".toList)).tmpWritten = ("foo".toList) ++ (".ddarescue-tmp".toList) := by
  refine ⟨(c8_tmp_name_set_extension ("foo".toList)).1, ?_⟩
  exact (c8_tmp_name_set_extension ("foo".toList)).2.2.2 (by decide)

/-- C6 (code evaluated at the failing input): on a freshly opened device
(32 free slots, none pending), a submission the kernel rejects with
`-EBADF` (-9) propagates the error but leaves the slot *marked used*:
`requests_avail` drops from 32 to 31 and `requests_pending` rises from 0
to 1, so the slot is never reusable — contradicting the specified
"leave the slot free" behaviour the claim states. -/
theorem c6_failed_submit_leaks_slot :
    requestsAvail BlockDev.fresh = 32 ∧
    requestsPending BlockDev.fresh = 0 ∧
    (submitRequest BlockDev.fresh (-9)).map
        (fun p => (p.2, requestsAvail p.1, requestsPending p.1)) = some (some 9, 31, 1) := by
  decide

end DDare


namespace DDare

/-! ### Well-formedness utilities for the run list -/

theorem WF.sortedKeys {m : TaggedRange T} (h : WF m) :
    m.Pairwise (fun a b => a.start < b.start) := by
  refine List.Pairwise.imp_of_mem ?_ h.1
  intro a b ha hb hab
  have hpa := h.2 a ha
  unfold Disj Region.stop at hab
  omega

theorem WF.disj_of_lt {m : TaggedRange T} (h : WF m) {a b : Region T} (ha : a ∈ m)
    (hb : b ∈ m) (hlt : a.start < b.start) : a.stop ≤ b.start := by
  have hsym : List.Pairwise (fun x y : Region T => Disj x y ∨ Disj y x) m :=
    h.1.imp Or.inl
  have hne : a ≠ b := fun heq => by rw [heq] at hlt; omega
  have := hsym.forall (fun x y hxy => hxy.symm) ha hb hne
  have hpa := h.2 a ha
  have hpb := h.2 b hb
  unfold Disj Region.stop at *
  omega

theorem WF.key_inj {m : TaggedRange T} (h : WF m) {a b : Region T} (ha : a ∈ m)
    (hb : b ∈ m) (heq : a.start = b.start) : a = b := by
  by_contra hne
  have hsym : List.Pairwise (fun x y : Region T => x.start < y.start ∨ y.start < x.start) m :=
    h.sortedKeys.imp Or.inl
  have := hsym.forall (fun x y hxy => hxy.symm) ha hb hne
  omega

/-! ### Positional computation lemmas for the map primitives -/

theorem insertKey_append {A B : TaggedRange T} {r : Region T}
    (hA : ∀ a ∈ A, a.start < r.start) (hB : ∀ b ∈ B, r.start < b.start) :
    insertKey (A ++ B) r = A ++ r :: B := by
  induction A with
  | nil =>
    cases B with
    | nil => rfl
    | cons b t =>
      show insertKey (b :: t) r = r :: b :: t
      rw [insertKey, if_pos (hB b (List.mem_cons_self _ _))]
  | cons a t ih =>
    have ha := hA a (List.mem_cons_self _ _)
    show insertKey (a :: (t ++ B)) r = a :: (t ++ r :: B)
    rw [insertKey, if_neg (by omega), if_neg (by omega),
      ih (fun x hx => hA x (List.mem_cons_of_mem _ hx))]

theorem removeKey_of_all_ne {m : TaggedRange T} {k : Nat} (h : ∀ e ∈ m, e.start ≠ k) :
    removeKey m k = m := by
  rw [removeKey, List.filter_eq_self]
  intro e he
  simpa using h e he

theorem removeKey_of_all_ne_nil {m : TaggedRange T} {k : Nat} (h : ∀ e ∈ m, e.start = k) :
    removeKey m k = m.filter (fun e => e.start ≠ k) := rfl

theorem removeKey_append_middle {A B : TaggedRange T} {e : Region T} {k : Nat}
    (hk : e.start = k) (hA : ∀ x ∈ A, x.start ≠ k) (hB : ∀ x ∈ B, x.start ≠ k) :
    removeKey (A ++ e :: B) k = A ++ B := by
  rw [removeKey, List.filter_append, List.filter_cons]
  rw [if_neg (by simp [hk])]
  rw [List.filter_eq_self.mpr (fun a ha => by simpa using hA a ha)]
  rw [List.filter_eq_self.mpr (fun a ha => by simpa using hB a ha)]

theorem lookupKey_append_middle {A B : TaggedRange T} {e : Region T} {k : Nat}
    (hk : e.start = k) (hA : ∀ x ∈ A, x.start ≠ k) :
    lookupKey (A ++ e :: B) k = some e := by
  induction A with
  | nil =>
    show List.find? _ (e :: B) = some e
    rw [List.find?_cons_of_pos]
    simp [hk]
  | cons a t ih =>
    show List.find? _ (a :: (t ++ e :: B)) = some e
    rw [List.find?_cons_of_neg]
    · exact ih (fun x hx => hA x (List.mem_cons_of_mem _ hx))
    · simp [hA a (List.mem_cons_self _ _)]

theorem maxBelow_split {X Y : TaggedRange T} {k : Nat}
    (hX : ∀ x ∈ X, x.start < k) (hY : ∀ y ∈ Y, ¬ y.start < k) :
    maxBelow (X ++ Y) k = X.getLast? := by
  rw [maxBelow, List.filter_append]
  rw [List.filter_eq_self.mpr (fun a ha => by simpa using hX a ha)]
  rw [List.filter_eq_nil_iff.mpr (fun a ha => by simpa using hY a ha)]
  rw [List.append_nil]

theorem minFrom_split {X Y : TaggedRange T} {k : Nat}
    (hX : ∀ x ∈ X, ¬ k ≤ x.start) (hY : ∀ y ∈ Y, k ≤ y.start) :
    minFrom (X ++ Y) k = Y.head? := by
  rw [minFrom, List.filter_append]
  rw [List.filter_eq_nil_iff.mpr (fun a ha => by simpa using hX a ha)]
  rw [List.filter_eq_self.mpr (fun a ha => by simpa using hY a ha)]
  rw [List.nil_append]

theorem keysIn_split {X M Y : TaggedRange T} {a b : Nat}
    (hX : ∀ x ∈ X, ¬(a ≤ x.start ∧ x.start < b))
    (hM : ∀ e ∈ M, a ≤ e.start ∧ e.start < b)
    (hY : ∀ y ∈ Y, ¬(a ≤ y.start ∧ y.start < b)) :
    keysIn (X ++ M ++ Y) a b = M.map Region.start := by
  rw [keysIn, List.filter_append, List.filter_append]
  rw [List.filter_eq_nil_iff.mpr (fun x hx => by simpa using hX x hx)]
  rw [List.filter_eq_self.mpr (fun e he => by simpa using hM e he)]
  rw [List.filter_eq_nil_iff.mpr (fun y hy => by simpa using hY y hy)]
  rw [List.nil_append, List.append_nil]

/-- A key-sorted run list splits at a threshold into its low and high
filters, in place. -/
theorem sorted_split_at {m : TaggedRange T}
    (h : m.Pairwise (fun a b => a.start < b.start)) (t : Nat) :
    m = m.filter (fun e => e.start < t) ++ m.filter (fun e => ¬ e.start < t) := by
  induction m with
  | nil => rfl
  | cons a rest ih =>
    have hhead := (List.pairwise_cons.mp h).1
    have hrest := (List.pairwise_cons.mp h).2
    rw [List.filter_cons, List.filter_cons]
    by_cases hc : a.start < t
    · rw [if_pos (by simpa using hc), if_neg (by simpa using hc)]
      rw [List.cons_append]
      exact congrArg (a :: ·) (ih hrest)
    · rw [if_neg (by simpa using hc), if_pos (by simpa using hc)]
      rw [List.filter_eq_nil_iff.mpr (fun x hx => by
        have := hhead x hx
        simp only [decide_eq_true_eq]
        omega)]
      rw [List.filter_eq_self.mpr (fun x hx => by
        have := hhead x hx
        simp only [decide_eq_true_eq]
        omega)]
      rw [List.nil_append]

theorem getLast?_max {l : TaggedRange T}
    (h : l.Pairwise (fun a b => a.start < b.start)) {e : Region T}
    (he : l.getLast? = some e) : e ∈ l ∧ ∀ x ∈ l, x.start ≤ e.start := by
  induction l with
  | nil => cases he
  | cons a t ih =>
    cases t with
    | nil =>
      rw [List.getLast?_singleton] at he
      cases he
      exact ⟨List.mem_singleton.mpr rfl, by intro x hx; rcases List.mem_singleton.mp hx with rfl; omega⟩
    | cons b t' =>
      rw [List.getLast?_cons_cons] at he
      have hhead := (List.pairwise_cons.mp h).1
      have ht := (List.pairwise_cons.mp h).2
      obtain ⟨hmem, hmax⟩ := ih ht he
      refine ⟨List.mem_cons_of_mem _ hmem, ?_⟩
      intro x hx
      rcases List.mem_cons.mp hx with rfl | hx
      · exact le_of_lt (hhead e hmem)
      · exact hmax x hx

theorem head?_min {l : TaggedRange T}
    (h : l.Pairwise (fun a b => a.start < b.start)) {e : Region T}
    (he : l.head? = some e) : e ∈ l ∧ ∀ x ∈ l, e.start ≤ x.start := by
  cases l with
  | nil => cases he
  | cons a t =>
    cases he
    refine ⟨List.mem_cons_self _ _, ?_⟩
    intro x hx
    rcases List.mem_cons.mp hx with rfl | hx
    · omega
    · exact le_of_lt ((List.pairwise_cons.mp h).1 x hx)

end DDare


namespace DDare

theorem WF.of_cons {a : Region T} {m : TaggedRange T} (h : WF (a :: m)) : WF m :=
  ⟨(List.pairwise_cons.mp h.1).2, fun e he => h.2 e (List.mem_cons_of_mem _ he)⟩

/-! ### Pointwise reading of the run list -/

theorem tagAt_append (P Q : TaggedRange T) (off : Nat) :
    tagAt (P ++ Q) off = (tagAt P off).or (tagAt Q off) := by
  simp only [tagAt, List.find?_append]
  cases hf : List.find? (fun e => decide (e.start ≤ off ∧ off < e.stop)) P with
  | none => rfl
  | some e => rfl

theorem tagAt_eq_none {P : TaggedRange T} {off : Nat}
    (h : ∀ e ∈ P, ¬(e.start ≤ off ∧ off < e.stop)) : tagAt P off = none := by
  simp only [tagAt]
  rw [List.find?_eq_none.mpr (fun e he => by simpa using h e he)]

theorem tagAt_of_covers {m : TaggedRange T} (hWF : WF m) {e : Region T} (he : e ∈ m)
    {off : Nat} (hc : e.start ≤ off ∧ off < e.stop) : tagAt m off = some e.tag := by
  induction m with
  | nil => cases he
  | cons a rest ih =>
    by_cases hca : a.start ≤ off ∧ off < a.stop
    · have hea : e = a := by
        rcases List.mem_cons.mp he with rfl | hmem
        · rfl
        · exfalso
          have hdisj : Disj a e := (List.pairwise_cons.mp hWF.1).1 e hmem
          unfold Disj at hdisj
          omega
      subst hea
      simp only [tagAt]
      rw [List.find?_cons_of_pos _ (by simpa using hca)]
    · rcases List.mem_cons.mp he with rfl | hmem
      · exact absurd hc hca
      · simp only [tagAt] at ih ⊢
        rw [List.find?_cons_of_neg _ (by simpa using hca)]
        exact ih hWF.of_cons hmem

/-- Under well-formedness the pointwise read is the unique covering run. -/
theorem tagAt_iff {m : TaggedRange T} (hWF : WF m) {off : Nat} {t : T} :
    tagAt m off = some t ↔ ∃ e ∈ m, (e.start ≤ off ∧ off < e.stop) ∧ e.tag = t := by
  constructor
  · intro h
    simp only [tagAt] at h
    cases hf : List.find? (fun e => decide (e.start ≤ off ∧ off < e.stop)) m with
    | none => rw [hf] at h; cases h
    | some e =>
      rw [hf] at h
      cases h
      have hmem := List.mem_of_find?_eq_some hf
      have hcov := List.find?_some hf
      simp only [decide_eq_true_eq] at hcov
      exact ⟨e, hmem, hcov, rfl⟩
  · rintro ⟨e, hmem, hcov, rfl⟩
    exact tagAt_of_covers hWF hmem hcov

end DDare


namespace DDare

theorem tagAt_cons {c : Region T} {t : TaggedRange T} {o : Nat} :
    tagAt (c :: t) o = if c.start ≤ o ∧ o < c.stop then some c.tag else tagAt t o := by
  by_cases h : c.start ≤ o ∧ o < c.stop
  · simp only [tagAt]
    rw [List.find?_cons_of_pos _ (by simpa using h), if_pos h]
  · simp only [tagAt]
    rw [List.find?_cons_of_neg _ (by simpa using h), if_neg h]

/-- `merge_at_offset` on a list split at `off`: it either joins the runs
immediately left and right of `off` (when they touch with equal tags) or
leaves the map unchanged. -/
theorem mergeAtOffset_split [DecidableEq T] {X Y : TaggedRange T} {off : Nat}
    (hsorted : (X ++ Y).Pairwise (fun a b => a.start < b.start))
    (hX : ∀ x ∈ X, x.start < off) (hY : ∀ y ∈ Y, off ≤ y.start) :
    mergeAtOffset (X ++ Y) off
      = match X.getLast?, Y.head? with
        | some a, some b =>
          if a.stop = b.start ∧ a.tag = b.tag
          then X.dropLast ++ (⟨a.start, a.length + b.length, a.tag⟩ : Region T) :: Y.tail
          else X ++ Y
        | some _, none => X ++ Y
        | none, _ => X ++ Y := by
  rw [mergeAtOffset]
  rw [maxBelow_split hX (fun y hy => by have := hY y hy; omega)]
  rw [minFrom_split (fun x hx => by have := hX x hx; omega) hY]
  cases hl : X.getLast? with
  | none => rfl
  | some a =>
    cases hh : Y.head? with
    | none => rfl
    | some b =>
      obtain ⟨ys, hy⟩ := List.head?_eq_some_iff.mp hh
      have hXne : X ≠ [] := fun h => by rw [h] at hl; cases hl
      have hga : X.getLast hXne = a :=
        Option.some.inj (by rw [← List.getLast?_eq_getLast X hXne]; exact hl)
      have hXeq : X = X.dropLast ++ [a] := by
        conv_lhs => rw [← List.dropLast_append_getLast hXne, hga]
      have hpairX : List.Pairwise (fun a b : Region T => a.start < b.start) X :=
        (List.pairwise_append.mp hsorted).1
      have hpairY : List.Pairwise (fun a b : Region T => a.start < b.start) Y :=
        (List.pairwise_append.mp hsorted).2.1
      have hcross := (List.pairwise_append.mp hsorted).2.2
      have haX : a ∈ X := by
        rw [hXeq]; exact List.mem_append_right _ (List.mem_singleton.mpr rfl)
      have hbY : b ∈ Y := by rw [hy]; exact List.mem_cons_self _ _
      have hdlX : ∀ x ∈ X.dropLast, x ∈ X :=
        fun x hx => List.Sublist.mem hx (List.dropLast_sublist X)
      have hdl : ∀ x ∈ X.dropLast, x.start < a.start := by
        have hp := List.pairwise_append.mp (hXeq ▸ hpairX)
        intro x hx
        exact hp.2.2 x hx a (List.mem_singleton.mpr rfl)
      show (if a.stop = b.start ∧ a.tag = b.tag then
          insertKey (removeKey (removeKey (X ++ Y) a.start) b.start)
            (⟨a.start, a.length + b.length, a.tag⟩ : Region T)
        else X ++ Y)
        = (if a.stop = b.start ∧ a.tag = b.tag then
          X.dropLast ++ (⟨a.start, a.length + b.length, a.tag⟩ : Region T) :: Y.tail
        else X ++ Y)
      by_cases hcond : a.stop = b.start ∧ a.tag = b.tag
      · simp only [if_pos hcond]
        have hstep1 : removeKey (X ++ Y) a.start = X.dropLast ++ Y := by
          conv_lhs => rw [hXeq, List.append_assoc, List.singleton_append]
          exact removeKey_append_middle rfl
            (fun x hx => by have := hdl x hx; omega)
            (fun x hx => by have := hcross a haX x hx; omega)
        have hstep2 : removeKey (X.dropLast ++ Y) b.start = X.dropLast ++ ys := by
          conv_lhs => rw [hy]
          exact removeKey_append_middle rfl
            (fun x hx => by have := hcross x (hdlX x hx) b hbY; omega)
            (fun x hx => by
              have := (List.pairwise_cons.mp (hy ▸ hpairY)).1 x hx
              omega)
        rw [hstep1, hstep2]
        rw [@insertKey_append T (List.dropLast X) ys
          (⟨a.start, a.length + b.length, a.tag⟩ : Region T) hdl (fun y hy2 => by
            have hyY : y ∈ Y := by rw [hy]; exact List.mem_cons_of_mem _ hy2
            exact hcross a haX y hyY)]
        rw [hy]
        rfl
      · simp only [if_neg hcond]

end DDare


namespace DDare

theorem tagAt_nil {o : Nat} : tagAt ([] : TaggedRange T) o = none := rfl

/-- `merge_at_offset` preserves well-formedness and does not change the
tag held at any byte offset. -/
theorem mergeAtOffset_props [DecidableEq T] {m : TaggedRange T} (hWF : WF m) (off : Nat) :
    WF (mergeAtOffset m off) ∧ ∀ o, tagAt (mergeAtOffset m off) o = tagAt m o := by
  have hsplit := sorted_split_at hWF.sortedKeys off
  set X := m.filter (fun e => e.start < off) with hXdef
  set Y := m.filter (fun e => ¬ e.start < off) with hYdef
  have hX : ∀ x ∈ X, x.start < off := fun x hx => by
    have := List.of_mem_filter hx; simpa using this
  have hY : ∀ y ∈ Y, off ≤ y.start := fun y hy => by
    have := List.of_mem_filter hy
    simp only [decide_eq_true_eq] at this
    omega
  have hXm : ∀ x ∈ X, x ∈ m := fun x hx => List.mem_of_mem_filter hx
  have hYm : ∀ y ∈ Y, y ∈ m := fun y hy => List.mem_of_mem_filter hy
  rw [hsplit]
  have hWF2 : WF (X ++ Y) := hsplit ▸ hWF
  rw [mergeAtOffset_split hWF2.sortedKeys hX hY]
  cases hl : X.getLast? with
  | none =>
    constructor
    · exact hWF2
    · intro o
      trivial
  | some a =>
    cases hh : Y.head? with
    | none =>
      constructor
      · exact hWF2
      · intro o
        trivial
    | some b =>
      show WF (if a.stop = b.start ∧ a.tag = b.tag
          then X.dropLast ++ (⟨a.start, a.length + b.length, a.tag⟩ : Region T) :: Y.tail
          else X ++ Y) ∧
        ∀ o, tagAt (if a.stop = b.start ∧ a.tag = b.tag
          then X.dropLast ++ (⟨a.start, a.length + b.length, a.tag⟩ : Region T) :: Y.tail
          else X ++ Y) o = tagAt (X ++ Y) o
      by_cases hcond : a.stop = b.start ∧ a.tag = b.tag
      case neg =>
        simp only [if_neg hcond]
        constructor
        · exact hWF2
        · intro o
          trivial
      case pos =>
      simp only [if_pos hcond]
      obtain ⟨ys, hy⟩ := List.head?_eq_some_iff.mp hh
      have hXne : X ≠ [] := fun h => by rw [h] at hl; cases hl
      have hga : X.getLast hXne = a :=
        Option.some.inj (by rw [← List.getLast?_eq_getLast X hXne]; exact hl)
      have hXeq : X = X.dropLast ++ [a] := by
        conv_lhs => rw [← List.dropLast_append_getLast hXne, hga]
      have haX : a ∈ X := by
        rw [hXeq]; exact List.mem_append_right _ (List.mem_singleton.mpr rfl)
      have hbY : b ∈ Y := by rw [hy]; exact List.mem_cons_self _ _
      have ham : a ∈ m := hXm a haX
      have hbm : b ∈ m := hYm b hbY
      have hdlX : ∀ x ∈ X.dropLast, x ∈ X :=
        fun x hx => List.Sublist.mem hx (List.dropLast_sublist X)
      have hpairX : List.Pairwise (fun u v : Region T => u.start < v.start) X :=
        (List.pairwise_append.mp hWF2.sortedKeys).1
      have hpairY : List.Pairwise (fun u v : Region T => u.start < v.start) Y :=
        (List.pairwise_append.mp hWF2.sortedKeys).2.1
      have hdl : ∀ x ∈ X.dropLast, x.start < a.start := by
        have hp := List.pairwise_append.mp (hXeq ▸ hpairX)
        intro x hx
        exact hp.2.2 x hx a (List.mem_singleton.mpr rfl)
      have hysY : ∀ y ∈ ys, y ∈ Y := fun y hyy => by
        rw [hy]; exact List.mem_cons_of_mem _ hyy
      have hbys : ∀ y ∈ ys, b.start < y.start := fun y hyy =>
        (List.pairwise_cons.mp (hy ▸ hpairY)).1 y hyy
      have hmerged_stop : (⟨a.start, a.length + b.length, a.tag⟩ : Region T).stop = b.stop := by
        have := hcond.1
        simp only [Region.stop] at *
        omega
      have htail : Y.tail = ys := by rw [hy]; rfl
      rw [htail]
      constructor
      · refine ⟨List.pairwise_append.mpr ⟨?_, ?_, ?_⟩, ?_⟩
        · exact hWF.1.sublist ((List.dropLast_sublist X).trans (List.filter_sublist m))
        · rw [List.pairwise_cons]
          constructor
          · intro y hyy
            show (⟨a.start, a.length + b.length, a.tag⟩ : Region T).stop ≤ y.start
            rw [hmerged_stop]
            exact hWF.disj_of_lt hbm (hYm y (hysY y hyy)) (hbys y hyy)
          · exact hWF.1.sublist (((hy ▸ List.sublist_cons_self b ys).trans
              (List.filter_sublist m)))
        · intro x hx z hz
          rcases List.mem_cons.mp hz with rfl | hzys
          · show x.stop ≤ a.start
            exact hWF.disj_of_lt (hXm x (hdlX x hx)) ham (hdl x hx)
          · have h1 : x.start < a.start := hdl x hx
            have h2 : a.start < off := hX a haX
            have h3 : off ≤ b.start := hY b hbY
            have h4 : b.start < z.start := hbys z hzys
            exact hWF.disj_of_lt (hXm x (hdlX x hx)) (hYm z (hysY z hzys)) (by omega)
        · intro e he
          rcases List.mem_append.mp he with h1 | h1
          · exact hWF.2 e (hXm e (hdlX e h1))
          · rcases List.mem_cons.mp h1 with rfl | h1
            · have ha := hWF.2 a ham
              show 0 < a.length + b.length
              omega
            · exact hWF.2 e (hYm e (hysY e h1))
      · intro o
        rw [tagAt_append]
        have hR : tagAt (X ++ Y) o = (tagAt X.dropLast o).or (tagAt (a :: b :: ys) o) := by
          rw [tagAt_append]
          have h1 : tagAt X o = (tagAt X.dropLast o).or (tagAt [a] o) := by
            conv_lhs => rw [hXeq]
            rw [tagAt_append]
          have h2 : tagAt Y o = tagAt (b :: ys) o := by rw [hy]
          rw [h1, h2, Option.or_assoc, ← tagAt_append, List.singleton_append]
        rw [hR]
        have hmain : tagAt ((⟨a.start, a.length + b.length, a.tag⟩ : Region T) :: ys) o
            = (tagAt (a :: (b :: ys)) o) := by
          have hcs : (⟨a.start, a.length + b.length, a.tag⟩ : Region T).start = a.start := rfl
          have hcl : (⟨a.start, a.length + b.length, a.tag⟩ : Region T).length
              = a.length + b.length := rfl
          have hct : (⟨a.start, a.length + b.length, a.tag⟩ : Region T).tag = a.tag := rfl
          rw [tagAt_cons, tagAt_cons, tagAt_cons]
          simp only [Region.stop, hcs, hcl, hct]
          have hc1 := hcond.1
          simp only [Region.stop] at hc1
          by_cases h1 : a.start ≤ o ∧ o < a.start + a.length
          · rw [if_pos (by omega), if_pos h1]
          · by_cases h2 : b.start ≤ o ∧ o < b.start + b.length
            · rw [if_pos (by omega), if_neg h1, if_pos h2, hcond.2]
            · rw [if_neg (by omega), if_neg h1, if_neg h2]
        rw [hmain]


end DDare


namespace DDare

/-- Replacing the head of a coalesced chain by a region with the same
stop and tag keeps it coalesced. -/
theorem coal_cons_replace {c c' : Region T} {t : TaggedRange T}
    (hstop : c'.stop = c.stop) (htag : c'.tag = c.tag)
    (h : List.Chain' (fun a b : Region T => a.stop = b.start → a.tag ≠ b.tag) (c :: t)) :
    List.Chain' (fun a b : Region T => a.stop = b.start → a.tag ≠ b.tag) (c' :: t) := by
  cases t with
  | nil => exact List.chain'_singleton _
  | cons y t' =>
    rw [List.chain'_cons] at h ⊢
    exact ⟨fun he => htag ▸ h.1 (by omega), h.2⟩

/-- Replacing the last element of a coalesced chain by a region with the
same start and tag keeps it coalesced. -/
theorem coal_concat_replace {c c' : Region T} {t : TaggedRange T}
    (hstart : c'.start = c.start) (htag : c'.tag = c.tag)
    (h : List.Chain' (fun a b : Region T => a.stop = b.start → a.tag ≠ b.tag) (t ++ [c])) :
    List.Chain' (fun a b : Region T => a.stop = b.start → a.tag ≠ b.tag) (t ++ [c']) := by
  rw [List.chain'_append] at h ⊢
  refine ⟨h.1, List.chain'_singleton _, ?_⟩
  intro x hx y hy
  simp only [List.head?_cons, Option.mem_def, Option.some_inj] at hy
  subst hy
  intro he htags
  exact h.2.2 x hx c (by simp) (by omega) (htag ▸ htags)

/-- `merge_at_offset` at `off` over `X ++ c :: Q` with `X` keyed below
`off` and `c :: Q` keyed at or above: the result replaces `X ++ [c]` by a
prefix `P1` of `X` and a centre run `c'` with `c`'s stop and tag, leaves
`Q` alone, and `P1 ++ [c']` is coalesced whenever `X` was. -/
theorem mergeAtOffset_left_shape [DecidableEq T] {X Q : TaggedRange T} {c : Region T}
    {off : Nat}
    (hsorted : (X ++ c :: Q).Pairwise (fun a b => a.start < b.start))
    (hX : ∀ x ∈ X, x.start < off) (hc : off ≤ c.start) (hQ : ∀ y ∈ Q, off ≤ y.start) :
    ∃ P1 c', mergeAtOffset (X ++ c :: Q) off = P1 ++ c' :: Q ∧
      c'.stop = c.stop ∧ c'.tag = c.tag ∧ c'.start ≤ c.start ∧
      (∀ x ∈ P1, x ∈ X) ∧ (∀ x ∈ P1, x.start < c'.start) ∧
      (List.Chain' (fun a b => a.stop = b.start → a.tag ≠ b.tag) X →
        List.Chain' (fun a b => a.stop = b.start → a.tag ≠ b.tag) (P1 ++ [c'])) := by
  have hsplit := mergeAtOffset_split (Y := c :: Q) hsorted hX
    (fun y hy => by
      rcases List.mem_cons.mp hy with rfl | hy
      · exact hc
      · exact hQ y hy)
  rcases List.eq_nil_or_concat X with rfl | ⟨X0, a, rfl⟩
  · exact ⟨[], c, by rw [hsplit]; rfl, rfl, rfl, le_refl _, by simp, by simp,
      fun _ => List.chain'_singleton _⟩
  · rw [List.concat_eq_append] at *
    have hgl : (X0 ++ [a]).getLast? = some a := List.getLast?_concat _
    rw [hgl] at hsplit
    have hXpair : List.Pairwise (fun u v : Region T => u.start < v.start) (X0 ++ [a]) :=
      (List.pairwise_append.mp hsorted).1
    have hX0a : ∀ x ∈ X0, x.start < a.start := fun x hx =>
      (List.pairwise_append.mp hXpair).2.2 x hx a (List.mem_singleton.mpr rfl)
    have haX : a ∈ X0 ++ [a] := List.mem_append_right _ (List.mem_singleton.mpr rfl)
    by_cases hcond : a.stop = c.start ∧ a.tag = c.tag
    · refine ⟨X0, ⟨a.start, a.length + c.length, a.tag⟩, ?_, ?_, hcond.2, ?_,
        fun x hx => List.mem_append_left _ hx, hX0a, ?_⟩
      · rw [hsplit]
        show (if a.stop = c.start ∧ a.tag = c.tag then _ else _) = _
        rw [if_pos hcond, List.dropLast_concat]
        rfl
      · show a.start + (a.length + c.length) = c.stop
        have h1 := hcond.1
        simp only [Region.stop] at *
        omega
      · show (⟨a.start, a.length + c.length, a.tag⟩ : Region T).start ≤ c.start
        have h1 := hX a haX
        have h2 := hc
        show a.start ≤ c.start
        omega
      · intro hchain
        exact @coal_concat_replace T a ⟨a.start, a.length + c.length, a.tag⟩ X0 rfl rfl hchain
    · refine ⟨X0 ++ [a], c, ?_, rfl, rfl, le_refl _, fun x hx => hx, ?_, ?_⟩
      · rw [hsplit]
        show (if a.stop = c.start ∧ a.tag = c.tag then _ else _) = _
        rw [if_neg hcond, List.append_assoc, List.singleton_append]
      · intro x hx
        rcases List.mem_append.mp hx with h1 | h1
        · have h2 := hX0a x h1
          have h3 := hX a haX
          omega
        · rcases List.mem_singleton.mp h1 with rfl
          have := hX x haX
          omega
      · intro hchain
        refine List.chain'_append.mpr ⟨hchain, List.chain'_singleton _, ?_⟩
        intro x hx y hy
        rw [hgl] at hx
        simp only [List.head?_cons, Option.mem_def, Option.some_inj] at hx hy
        subst hx
        subst hy
        intro he htags
        exact hcond ⟨he, htags⟩

/-- `merge_at_offset` keeps a coalesced-by-sides map coalesced: if the
two sides of the split are each coalesced, the merged map is coalesced
outright (the merge closes the only possible boundary violation). -/
theorem mergeAtOffset_coal [DecidableEq T] {X Y : TaggedRange T} {off : Nat}
    (hsorted : (X ++ Y).Pairwise (fun a b => a.start < b.start))
    (hX : ∀ x ∈ X, x.start < off) (hY : ∀ y ∈ Y, off ≤ y.start)
    (hcX : List.Chain' (fun a b => a.stop = b.start → a.tag ≠ b.tag) X)
    (hcY : List.Chain' (fun a b => a.stop = b.start → a.tag ≠ b.tag) Y) :
    List.Chain' (fun a b : Region T => a.stop = b.start → a.tag ≠ b.tag)
      (mergeAtOffset (X ++ Y) off) := by
  rw [mergeAtOffset_split hsorted hX hY]
  cases hl : X.getLast? with
  | none =>
    refine List.chain'_append.mpr ⟨hcX, hcY, ?_⟩
    intro x hx
    rw [hl] at hx
    cases hx
  | some a =>
    cases hh : Y.head? with
    | none =>
      refine List.chain'_append.mpr ⟨hcX, hcY, ?_⟩
      intro x hx y hy
      rw [hh] at hy
      cases hy
    | some b =>
      show List.Chain' _ (if a.stop = b.start ∧ a.tag = b.tag then _ else _)
      by_cases hcond : a.stop = b.start ∧ a.tag = b.tag
      case neg =>
        rw [if_neg hcond]
        refine List.chain'_append.mpr ⟨hcX, hcY, ?_⟩
        intro x hx y hy
        rw [hl] at hx
        rw [hh] at hy
        simp only [Option.mem_def, Option.some_inj] at hx hy
        subst hx
        subst hy
        intro he htags
        exact hcond ⟨he, htags⟩
      case pos =>
      rw [if_pos hcond]
      obtain ⟨ys, hy⟩ := List.head?_eq_some_iff.mp hh
      have hXne : X ≠ [] := fun h => by rw [h] at hl; cases hl
      have hga : X.getLast hXne = a :=
        Option.some.inj (by rw [← List.getLast?_eq_getLast X hXne]; exact hl)
      have hXeq : X = X.dropLast ++ [a] := by
        conv_lhs => rw [← List.dropLast_append_getLast hXne, hga]
      have hchainX := List.chain'_append.mp (hXeq ▸ hcX)
      have hmerged_stop : (⟨a.start, a.length + b.length, a.tag⟩ : Region T).stop = b.stop := by
        have := hcond.1
        simp only [Region.stop] at *
        omega
      have htail : Y.tail = ys := by rw [hy]; rfl
      rw [htail]
      refine List.chain'_append.mpr ⟨hchainX.1, ?_, ?_⟩
      · refine coal_cons_replace hmerged_stop ?_ (hy ▸ hcY)
        exact hcond.2
      · intro x hx y hy2
        simp only [List.head?_cons, Option.mem_def, Option.some_inj] at hy2
        subst hy2
        intro he htags
        have hxa := hchainX.2.2 x hx a (by simp)
        exact hxa (by simpa [Region.stop] using he) htags

end DDare


namespace DDare

theorem resRight_nil {hi : Nat} : resRight ([] : TaggedRange T) hi = [] := rfl

theorem resRight_one {e : Region T} {hi : Nat} :
    resRight [e] hi = if hi < e.stop then [⟨hi, e.stop - hi, e.tag⟩] else [] := by
  rw [resRight, List.getLast?_singleton]

theorem resRight_cons₂ {e x : Region T} {t : TaggedRange T} {hi : Nat} :
    resRight (e :: x :: t) hi = resRight (x :: t) hi := by
  rw [resRight, resRight, List.getLast?_cons_cons]

theorem resLeft_nil {lo : Nat} : resLeft ([] : TaggedRange T) lo = [] := rfl

theorem resLeft_cons {e : Region T} {t : TaggedRange T} {lo : Nat} :
    resLeft (e :: t) lo = if e.start < lo then [⟨e.start, lo - e.start, e.tag⟩] else [] := by
  rw [resLeft, List.head?_cons]

/-- The split loop of `put` over overlapped runs that all start in
`[lo, hi)`: it removes them all and re-inserts only the right residual of
the last (when it runs past `hi`). -/
theorem fold_splitOne [DecidableEq T] {lo hi : Nat} :
    ∀ (M A B : TaggedRange T),
      M.Pairwise Disj →
      (∀ e ∈ M, 0 < e.length) →
      (∀ e ∈ M, lo ≤ e.start ∧ e.start < hi) →
      (∀ x ∈ A, x.start < lo) →
      (∀ b ∈ B, hi ≤ b.start) →
      (∀ e ∈ M, ∀ b ∈ B, e.stop ≤ b.start) →
      (M.map Region.start).foldl (splitOne lo hi) (A ++ M ++ B)
        = A ++ resRight M hi ++ B := by
  intro M
  induction M with
  | nil => intro A B _ _ _ _ _ _; rfl
  | cons e M' ih =>
    intro A B hdisj hpos hrange hA hB hMB
    have he_range := hrange e (List.mem_cons_self _ _)
    have hdisj_head := (List.pairwise_cons.mp hdisj).1
    have hdisj' := (List.pairwise_cons.mp hdisj).2
    have hAne : ∀ x ∈ A, x.start ≠ e.start := fun x hx => by
      have := hA x hx; omega
    have hM'gt : ∀ x ∈ M', x.start ≠ e.start := fun x hx => by
      have h1 := hdisj_head x hx
      have h2 := hpos e (List.mem_cons_self _ _)
      unfold Disj Region.stop at h1
      omega
    have hBne : ∀ x ∈ B, x.start ≠ e.start := fun x hx => by
      have := hB x hx; omega
    have hshape : A ++ (e :: M') ++ B = A ++ e :: (M' ++ B) := by
      simp [List.append_assoc]
    have hlkp : lookupKey (A ++ (e :: M') ++ B) e.start = some e := by
      rw [hshape]
      exact lookupKey_append_middle rfl hAne
    have hrm : removeKey (A ++ (e :: M') ++ B) e.start = A ++ (M' ++ B) := by
      rw [hshape]
      exact removeKey_append_middle rfl hAne
        (fun x hx => by
          rcases List.mem_append.mp hx with h1 | h1
          · exact hM'gt x h1
          · exact hBne x h1)
    show List.foldl (splitOne lo hi) (A ++ (e :: M') ++ B) (e.start :: M'.map Region.start)
      = A ++ resRight (e :: M') hi ++ B
    rw [List.foldl_cons]
    rw [splitOne, hlkp]
    simp only [hrm, if_neg (by omega : ¬ e.start < lo)]
    by_cases hstop : hi < e.stop
    · rw [if_pos hstop]
      have hM'nil : M' = [] := by
        rcases M' with _ | ⟨x, t⟩
        · rfl
        · exfalso
          have h1 := hdisj_head x (List.mem_cons_self _ _)
          have h2 := (hrange x (List.mem_cons_of_mem _ (List.mem_cons_self _ _))).2
          unfold Disj at h1
          omega
      subst hM'nil
      rw [List.nil_append]
      rw [@insertKey_append T A B ⟨hi, e.stop - hi, e.tag⟩
        (fun x hx => by have := hA x hx; show x.start < hi; omega)
        (fun b hb => by
          have h1 := hMB e (List.mem_cons_self _ _) b hb
          show hi < b.start
          omega)]
      show List.foldl (splitOne lo hi) _ [] = _
      rw [List.foldl_nil]
      rw [resRight_one, if_pos hstop, List.append_assoc, List.singleton_append]
    · rw [if_neg hstop]
      rw [← List.append_assoc]
      rw [ih A B hdisj' (fun x hx => hpos x (List.mem_cons_of_mem _ hx))
        (fun x hx => hrange x (List.mem_cons_of_mem _ hx)) hA hB
        (fun x hx b hb => hMB x (List.mem_cons_of_mem _ hx) b hb)]
      rcases M' with _ | ⟨x, t⟩
      · rw [resRight_one, if_neg hstop, resRight_nil]
      · rw [resRight_cons₂]

end DDare

namespace DDare

theorem maxBelow_none {m : TaggedRange T} {k : Nat} (h : maxBelow m k = none) :
    ∀ x ∈ m, ¬ x.start < k := by
  rw [maxBelow, List.getLast?_eq_none_iff] at h
  intro x hx hlt
  have : x ∈ List.filter (fun e => decide (e.start < k)) m :=
    List.mem_filter.mpr ⟨hx, by simpa using hlt⟩
  rw [h] at this
  cases this

theorem maxBelow_some {m : TaggedRange T} (hs : m.Pairwise (fun a b => a.start < b.start))
    {k : Nat} {e : Region T} (h : maxBelow m k = some e) :
    e ∈ m ∧ e.start < k ∧ ∀ x ∈ m, x.start < k → x.start ≤ e.start := by
  rw [maxBelow] at h
  have hsf : (m.filter (fun e => decide (e.start < k))).Pairwise
      (fun a b : Region T => a.start < b.start) := hs.filter _
  obtain ⟨hmem, hmax⟩ := getLast?_max hsf h
  refine ⟨List.mem_of_mem_filter hmem, by simpa using List.of_mem_filter hmem, ?_⟩
  intro x hx hlt
  exact hmax x (List.mem_filter.mpr ⟨hx, by simpa using hlt⟩)

/-- The whole split loop of `put`: the head of the overlapped block may
also leave a left residual. -/
theorem fold_splitOne_head [DecidableEq T] {lo hi : Nat} :
    ∀ (M A B : TaggedRange T),
      M.Pairwise Disj →
      (∀ e ∈ M, 0 < e.length) →
      (∀ e ∈ M, e.start < hi) →
      (∀ e ∈ M, lo ≤ e.start ∨ (M.head? = some e ∧ e.start < lo)) →
      (∀ x ∈ A, ∀ e ∈ M, x.start < e.start) →
      (∀ x ∈ A, x.start < lo) →
      (∀ b ∈ B, hi ≤ b.start) →
      (∀ e ∈ M, ∀ b ∈ B, e.stop ≤ b.start) →
      lo < hi →
      (M.map Region.start).foldl (splitOne lo hi) (A ++ M ++ B)
        = A ++ resLeft M lo ++ (resRight M hi ++ B) := by
  intro M A B hdisj hpos hlt hloc hAM hA hB hMB hlh
  cases M with
  | nil => simp [resLeft_nil, resRight_nil]
  | cons eh M' =>
    have hdisj_head := (List.pairwise_cons.mp hdisj).1
    have hdisj' := (List.pairwise_cons.mp hdisj).2
    have hM'start : ∀ x ∈ M', eh.start < x.start := fun x hx => by
      have h1 := hdisj_head x hx
      have h2 := hpos eh (List.mem_cons_self _ _)
      unfold Disj Region.stop at h1
      omega
    have hM'lo : ∀ x ∈ M', lo ≤ x.start := by
      intro x hx
      rcases hloc x (List.mem_cons_of_mem _ hx) with h1 | h1
      · exact h1
      · exfalso
        have hxeh : x = eh := Option.some.inj h1.1.symm
        have := hM'start x hx
        rw [hxeh] at this
        omega
    have hAne : ∀ x ∈ A, x.start ≠ eh.start := fun x hx => by
      have := hAM x hx eh (List.mem_cons_self _ _); omega
    have hM'ne : ∀ x ∈ M', x.start ≠ eh.start := fun x hx => by
      have := hM'start x hx; omega
    have hBne : ∀ x ∈ B, x.start ≠ eh.start := fun x hx => by
      have h1 := hB x hx
      have h2 := hlt eh (List.mem_cons_self _ _)
      omega
    have hshape : A ++ (eh :: M') ++ B = A ++ eh :: (M' ++ B) := by
      simp [List.append_assoc]
    have hlkp : lookupKey (A ++ (eh :: M') ++ B) eh.start = some eh := by
      rw [hshape]; exact lookupKey_append_middle rfl hAne
    have hrm : removeKey (A ++ (eh :: M') ++ B) eh.start = A ++ (M' ++ B) := by
      rw [hshape]
      exact removeKey_append_middle rfl hAne
        (fun x hx => by
          rcases List.mem_append.mp hx with h1 | h1
          · exact hM'ne x h1
          · exact hBne x h1)
    show List.foldl (splitOne lo hi) (A ++ (eh :: M') ++ B)
        (eh.start :: M'.map Region.start)
      = A ++ resLeft (eh :: M') lo ++ (resRight (eh :: M') hi ++ B)
    rw [List.foldl_cons, splitOne, hlkp]
    simp only [hrm]
    by_cases hself : eh.start < lo
    · -- head starts before lo: a left residual is inserted at its key
      rw [if_pos hself]
      have hins : insertKey (A ++ (M' ++ B)) ⟨eh.start, lo - eh.start, eh.tag⟩
          = (A ++ [(⟨eh.start, lo - eh.start, eh.tag⟩ : Region T)]) ++ (M' ++ B) := by
        have h0 : insertKey (A ++ (M' ++ B)) (⟨eh.start, lo - eh.start, eh.tag⟩ : Region T)
            = A ++ (⟨eh.start, lo - eh.start, eh.tag⟩ : Region T) :: (M' ++ B) :=
          insertKey_append
            (fun x hx => hAM x hx eh (List.mem_cons_self _ _))
            (fun x hx => by
              rcases List.mem_append.mp hx with h1 | h1
              · exact hM'start x h1
              · show eh.start < x.start
                have h2 := hB x h1
                have h3 := hlt eh (List.mem_cons_self _ _)
                omega)
        rw [h0, List.append_assoc, List.singleton_append]
      rw [hins]
      rw [resLeft_cons, if_pos hself]
      by_cases hstop : hi < eh.stop
      · rw [if_pos hstop]
        have hM'nil : M' = [] := by
          rcases M' with _ | ⟨x, t⟩
          · rfl
          · exfalso
            have h1 := hdisj_head x (List.mem_cons_self _ _)
            have h2 := hlt x (List.mem_cons_of_mem _ (List.mem_cons_self _ _))
            unfold Disj at h1
            omega
        subst hM'nil
        rw [List.nil_append]
        have hins2 : insertKey (A ++ [(⟨eh.start, lo - eh.start, eh.tag⟩ : Region T)] ++ B)
            (⟨hi, eh.stop - hi, eh.tag⟩ : Region T)
            = A ++ [(⟨eh.start, lo - eh.start, eh.tag⟩ : Region T)]
              ++ (⟨hi, eh.stop - hi, eh.tag⟩ : Region T) :: B :=
          insertKey_append
            (fun x hx => by
              rcases List.mem_append.mp hx with h1 | h1
              · have := hA x h1; show x.start < hi; omega
              · rcases List.mem_singleton.mp h1 with rfl
                show eh.start < hi
                exact hlt eh (List.mem_cons_self _ _))
            (fun b hb => by
              have h1 := hMB eh (List.mem_cons_self _ _) b hb
              show hi < b.start
              omega)
        rw [hins2]
        show List.foldl (splitOne lo hi) _ [] = _
        rw [List.foldl_nil, resRight_one, if_pos hstop]
        simp [List.append_assoc]
      · rw [if_neg hstop]
        rw [← List.append_assoc]
        have hfold := fold_splitOne M' (A ++ [(⟨eh.start, lo - eh.start, eh.tag⟩ : Region T)])
          B hdisj'
          (fun x hx => hpos x (List.mem_cons_of_mem _ hx))
          (fun x hx => ⟨hM'lo x hx, hlt x (List.mem_cons_of_mem _ hx)⟩)
          (fun x hx => by
            rcases List.mem_append.mp hx with h1 | h1
            · exact hA x h1
            · rcases List.mem_singleton.mp h1 with rfl
              exact hself)
          hB (fun x hx b hb => hMB x (List.mem_cons_of_mem _ hx) b hb)
        rw [hfold]
        rcases M' with _ | ⟨x, t⟩
        · rw [resRight_one, if_neg hstop, resRight_nil]
          simp
        · rw [resRight_cons₂]
          simp [List.append_assoc]
    · -- head starts at or after lo: no left residual
      rw [if_neg hself]
      rw [resLeft_cons, if_neg hself, List.append_nil]
      by_cases hstop : hi < eh.stop
      · rw [if_pos hstop]
        have hM'nil : M' = [] := by
          rcases M' with _ | ⟨x, t⟩
          · rfl
          · exfalso
            have h1 := hdisj_head x (List.mem_cons_self _ _)
            have h2 := hlt x (List.mem_cons_of_mem _ (List.mem_cons_self _ _))
            unfold Disj at h1
            omega
        subst hM'nil
        rw [List.nil_append]
        have hins2 : insertKey (A ++ B) (⟨hi, eh.stop - hi, eh.tag⟩ : Region T)
            = A ++ (⟨hi, eh.stop - hi, eh.tag⟩ : Region T) :: B :=
          insertKey_append
            (fun x hx => by have := hA x hx; show x.start < hi; omega)
            (fun b hb => by
              have h1 := hMB eh (List.mem_cons_self _ _) b hb
              show hi < b.start
              omega)
        rw [hins2]
        show List.foldl (splitOne lo hi) _ [] = _
        rw [List.foldl_nil, resRight_one, if_pos hstop]
        simp [List.append_assoc]
      · rw [if_neg hstop]
        rw [← List.append_assoc]
        have hfold := fold_splitOne M' A B hdisj'
          (fun x hx => hpos x (List.mem_cons_of_mem _ hx))
          (fun x hx => ⟨hM'lo x hx, hlt x (List.mem_cons_of_mem _ hx)⟩)
          hA hB (fun x hx b hb => hMB x (List.mem_cons_of_mem _ hx) b hb)
        rw [hfold]
        rcases M' with _ | ⟨x, t⟩
        · rw [resRight_one, if_neg hstop, resRight_nil]
          simp
        · rw [resRight_cons₂]
          simp [List.append_assoc]

end DDare


namespace DDare

/-- Facts about `get_covering_range`'s start. -/
theorem coveringStart_facts {m : TaggedRange T} (hWF : WF m) (lo : Nat) :
    coveringStart m lo ≤ lo ∧
    (∀ a ∈ m, a.start < coveringStart m lo → a.stop ≤ coveringStart m lo) ∧
    (coveringStart m lo < lo →
      ∃ es ∈ m, es.start = coveringStart m lo ∧ lo < es.stop) := by
  cases hmb : maxBelow m lo with
  | none =>
    have hnone := maxBelow_none hmb
    have hL : coveringStart m lo = lo := by rw [coveringStart, hmb]
    rw [hL]
    refine ⟨le_refl _, ?_, ?_⟩
    · intro a ha halt
      exact absurd halt (hnone a ha)
    · omega
  | some es =>
    obtain ⟨hmem, hlt, hmax⟩ := maxBelow_some hWF.sortedKeys hmb
    by_cases hov : lo < es.stop
    · have hL : coveringStart m lo = es.start := by
        rw [coveringStart, hmb]
        exact if_pos hov
      rw [hL]
      refine ⟨le_of_lt hlt, ?_, ?_⟩
      · intro a ha halt
        exact hWF.disj_of_lt ha hmem halt
      · intro _
        exact ⟨es, hmem, rfl, hov⟩
    · have hL : coveringStart m lo = lo := by
        rw [coveringStart, hmb]
        exact if_neg hov
      rw [hL]
      refine ⟨le_refl _, ?_, ?_⟩
      · intro a ha halt
        have h1 := hmax a ha halt
        rcases eq_or_lt_of_le h1 with heq | hlt2
        · rw [hWF.key_inj ha hmem heq]
          omega
        · have := hWF.disj_of_lt ha hmem hlt2
          omega
      · omega

end DDare


namespace DDare

/-- The decomposition of `put` before the two merges: the map splits into
runs left of the covering start, overlapped runs, and runs at or past
`hi`; the split loop replaces the overlapped block by its two residuals,
and the new run is inserted between them. -/
theorem put_parts [DecidableEq T] {m : TaggedRange T} (hWF : WF m) {lo hi : Nat}
    (hlh : lo < hi) (tag : T) :
    ∃ A M B : TaggedRange T,
      m = A ++ M ++ B ∧
      put m lo hi tag
        = mergeAtOffset (mergeAtOffset
            (A ++ resLeft M lo ++ (⟨lo, hi - lo, tag⟩ : Region T)
              :: (resRight M hi ++ B)) lo) hi ∧
      (∀ a ∈ A, a ∈ m) ∧ (∀ e ∈ M, e ∈ m) ∧ (∀ b ∈ B, b ∈ m) ∧
      (∀ a ∈ A, a.stop ≤ lo) ∧
      (∀ a ∈ A, ∀ l ∈ resLeft M lo, a.stop ≤ l.start) ∧
      (∀ l ∈ resLeft M lo, l.stop = lo ∧ 0 < l.length ∧ l.start < lo ∧
        ∃ eh, M.head? = some eh ∧ l.start = eh.start ∧ l.tag = eh.tag ∧ lo < eh.stop) ∧
      (resLeft M lo = [] → ∀ e ∈ M, lo ≤ e.start) ∧
      (∀ e ∈ M, M.head? = some e ∨ lo ≤ e.start) ∧
      (∀ r ∈ resRight M hi, r.start = hi ∧ 0 < r.length ∧
        ∃ el, M.getLast? = some el ∧ r.stop = el.stop ∧ r.tag = el.tag ∧ hi < el.stop) ∧
      (resRight M hi = [] → ∀ e ∈ M, e.stop ≤ hi) ∧
      (∀ e ∈ M, M.getLast? = some e ∨ e.stop ≤ hi) ∧
      (∀ b ∈ B, hi ≤ b.start) ∧
      (∀ r ∈ resRight M hi, ∀ b ∈ B, r.stop ≤ b.start) ∧
      (∀ e ∈ M, e.start < hi) := by
  obtain ⟨hLle, hAstop0, hLover⟩ := coveringStart_facts hWF lo
  have hsorted := hWF.sortedKeys
  refine ⟨m.filter (fun e => e.start < coveringStart m lo),
    (m.filter (fun e => ¬ e.start < coveringStart m lo)).filter (fun e => e.start < hi),
    (m.filter (fun e => ¬ e.start < coveringStart m lo)).filter (fun e => ¬ e.start < hi),
    ?_⟩
  set L := coveringStart m lo with hLdef
  set A := m.filter (fun e => e.start < L) with hAdef
  set R := m.filter (fun e => ¬ e.start < L) with hRdef
  set M := R.filter (fun e => e.start < hi) with hMdef
  set B := R.filter (fun e => ¬ e.start < hi) with hBdef
  have hRpair : R.Pairwise (fun a b : Region T => a.start < b.start) := hsorted.filter _
  have hMpair : M.Pairwise (fun a b : Region T => a.start < b.start) := hRpair.filter _
  have hAM : m = A ++ M ++ B := by
    rw [List.append_assoc, hAdef, hMdef, hBdef]
    rw [← sorted_split_at hRpair hi, hRdef]
    exact sorted_split_at hsorted L
  have hAmem : ∀ a ∈ A, a ∈ m ∧ a.start < L := by
    intro a ha
    exact ⟨List.mem_of_mem_filter ha, by simpa using List.of_mem_filter ha⟩
  have hMmem : ∀ e ∈ M, e ∈ m ∧ L ≤ e.start ∧ e.start < hi := by
    intro e he
    have h1 := List.mem_of_mem_filter he
    have h2 : e.start < hi := by simpa using List.of_mem_filter he
    have h3 : ¬ e.start < L := by simpa using List.of_mem_filter h1
    exact ⟨List.mem_of_mem_filter h1, by omega, h2⟩
  have hBmem : ∀ b ∈ B, b ∈ m ∧ hi ≤ b.start := by
    intro b hb
    have h1 := List.mem_of_mem_filter hb
    have h2 : ¬ b.start < hi := by simpa using List.of_mem_filter hb
    exact ⟨List.mem_of_mem_filter h1, by omega⟩
  have hMback : ∀ e ∈ m, L ≤ e.start → e.start < hi → e ∈ M := by
    intro e he h1 h2
    rw [hMdef, hRdef]
    exact List.mem_filter.mpr ⟨List.mem_filter.mpr ⟨he, by simp; omega⟩, by simpa using h2⟩
  -- head facts
  have hOverHead : ∀ eh, M.head? = some eh → eh.start < lo → lo < eh.stop := by
    intro eh hhd hlt2
    obtain ⟨heh_mem, heh_min⟩ := head?_min hMpair hhd
    have hLlt : L < lo := lt_of_le_of_lt (hMmem eh heh_mem).2.1 hlt2
    obtain ⟨es, hes_m, hes_start, hes_stop⟩ := hLover hLlt
    have hes_M : es ∈ M := hMback es hes_m (le_of_eq hes_start.symm) (by omega)
    have h1 : eh.start ≤ es.start := heh_min es hes_M
    have h2 : L ≤ eh.start := (hMmem eh heh_mem).2.1
    have h3 : eh.start = es.start := by omega
    have h4 : eh = es := hWF.key_inj (hMmem eh heh_mem).1 hes_m h3
    rw [h4]
    exact hes_stop
  have hMtail : ∀ e ∈ M, M.head? = some e ∨ lo ≤ e.start := by
    intro e he
    cases hhd : M.head? with
    | none =>
      rw [List.head?_eq_none_iff] at hhd
      rw [hhd] at he
      cases he
    | some eh =>
      by_cases heq : e = eh
      · left; rw [heq]
      · right
        obtain ⟨heh_mem, heh_min⟩ := head?_min hMpair hhd
        have h1 : eh.start ≤ e.start := heh_min e he
        have h2 : eh.start ≠ e.start := fun hx =>
          heq (hWF.key_inj (hMmem eh heh_mem).1 (hMmem e he).1 hx).symm
        have h3 : eh.start < e.start := lt_of_le_of_ne h1 h2
        by_cases hehlo : lo ≤ eh.start
        · omega
        · have h4 := hOverHead eh hhd (by omega)
          have h5 := hWF.disj_of_lt (hMmem eh heh_mem).1 (hMmem e he).1 h3
          unfold Disj at h5
          omega
  have hLfacts : ∀ l ∈ resLeft M lo, l.stop = lo ∧ 0 < l.length ∧ l.start < lo ∧
      ∃ eh, M.head? = some eh ∧ l.start = eh.start ∧ l.tag = eh.tag ∧ lo < eh.stop := by
    intro l hl
    cases hMc : M with
    | nil =>
      rw [hMc, resLeft_nil] at hl
      cases hl
    | cons eh M' =>
      have hhd : M.head? = some eh := by rw [hMc, List.head?_cons]
      rw [hMc, resLeft_cons] at hl
      by_cases hs : eh.start < lo
      · rw [if_pos hs] at hl
        rcases List.mem_singleton.mp hl with rfl
        rw [← hMc]
        refine ⟨by simp [Region.stop]; omega, by simp; omega, by simpa using hs,
          eh, hhd, rfl, rfl, ?_⟩
        exact hOverHead eh hhd hs
      · rw [if_neg hs] at hl
        cases hl
  have hLnil : resLeft M lo = [] → ∀ e ∈ M, lo ≤ e.start := by
    intro hres e he
    cases hMc : M with
    | nil =>
      rw [hMc] at he
      cases he
    | cons eh M' =>
      have hhd : M.head? = some eh := by rw [hMc, List.head?_cons]
      rw [hMc, resLeft_cons] at hres
      by_cases hs : eh.start < lo
      · rw [if_pos hs] at hres
        cases hres
      · have := (head?_min hMpair hhd).2 e he
        omega
  -- last facts
  have hMstop : ∀ e ∈ M, M.getLast? = some e ∨ e.stop ≤ hi := by
    intro e he
    cases hgl : M.getLast? with
    | none =>
      rw [List.getLast?_eq_none_iff] at hgl
      rw [hgl] at he
      cases he
    | some el =>
      by_cases heq : e = el
      · left; rw [heq]
      · right
        obtain ⟨hel_mem, hel_max⟩ := getLast?_max hMpair hgl
        have h1 : e.start ≤ el.start := hel_max e he
        have h2 : e.start ≠ el.start := fun hx =>
          heq (hWF.key_inj (hMmem e he).1 (hMmem el hel_mem).1 hx)
        have h3 : e.start < el.start := lt_of_le_of_ne h1 h2
        have h4 := hWF.disj_of_lt (hMmem e he).1 (hMmem el hel_mem).1 h3
        have h5 := (hMmem el hel_mem).2.2
        unfold Disj at h4
        omega
  have hRfacts : ∀ r ∈ resRight M hi, r.start = hi ∧ 0 < r.length ∧
      ∃ el, M.getLast? = some el ∧ r.stop = el.stop ∧ r.tag = el.tag ∧ hi < el.stop := by
    intro r hr
    cases hgl : M.getLast? with
    | none =>
      have hres : resRight M hi = [] := by rw [resRight, hgl]
      rw [hres] at hr
      cases hr
    | some el =>
      have hres : resRight M hi
          = if hi < el.stop then [⟨hi, el.stop - hi, el.tag⟩] else [] := by
        rw [resRight, hgl]
      rw [hres] at hr
      by_cases hs : hi < el.stop
      · rw [if_pos hs] at hr
        rcases List.mem_singleton.mp hr with rfl
        refine ⟨rfl, ?_, el, rfl, ?_, rfl, hs⟩
        · show 0 < el.stop - hi
          omega
        · show hi + (el.stop - hi) = el.stop
          omega
      · rw [if_neg hs] at hr
        cases hr
  have hRnil : resRight M hi = [] → ∀ e ∈ M, e.stop ≤ hi := by
    intro hres e he
    cases hgl : M.getLast? with
    | none =>
      rw [List.getLast?_eq_none_iff] at hgl
      rw [hgl] at he
      cases he
    | some el =>
      have hres2 : resRight M hi
          = if hi < el.stop then [⟨hi, el.stop - hi, el.tag⟩] else [] := by
        rw [resRight, hgl]
      rw [hres2] at hres
      by_cases hs : hi < el.stop
      · rw [if_pos hs] at hres
        cases hres
      · rcases hMstop e he with h1 | h1
        · rw [hgl] at h1
          obtain rfl := Option.some_inj.mp h1
          omega
        · exact h1
  have hBhi : ∀ b ∈ B, hi ≤ b.start := fun b hb => (hBmem b hb).2
  have hMdisj : M.Pairwise Disj := by
    refine List.Pairwise.imp_of_mem ?_ hMpair
    intro a b ha hb h
    exact hWF.disj_of_lt (hMmem a ha).1 (hMmem b hb).1 h
  -- the put equation
  have hks : keysIn m L hi = M.map Region.start := by
    rw [keysIn, hMdef, hRdef, List.filter_filter]
    congr 1
    apply List.filter_congr
    intro x hx
    rw [Bool.eq_iff_iff]
    simp only [Bool.and_eq_true, decide_eq_true_eq]
    omega
  have hfold : (M.map Region.start).foldl (splitOne lo hi) m
      = A ++ resLeft M lo ++ (resRight M hi ++ B) := by
    conv_lhs => rw [hAM]
    exact fold_splitOne_head M A B hMdisj
      (fun e he => hWF.2 e (hMmem e he).1)
      (fun e he => (hMmem e he).2.2)
      (fun e he => by
        rcases hMtail e he with h1 | h1
        · by_cases hs : lo ≤ e.start
          · exact Or.inl hs
          · exact Or.inr ⟨h1, by omega⟩
        · exact Or.inl h1)
      (fun x hx e he => by
        have h1 := (hAmem x hx).2
        have h2 := (hMmem e he).2.1
        omega)
      (fun x hx => by have := (hAmem x hx).2; omega)
      hBhi
      (fun e he b hb => hWF.disj_of_lt (hMmem e he).1 (hBmem b hb).1
        (by have := (hMmem e he).2.2; have := (hBmem b hb).2; omega))
      hlh
  have hins : insertKey ((A ++ resLeft M lo) ++ (resRight M hi ++ B))
      (⟨lo, hi - lo, tag⟩ : Region T)
      = (A ++ resLeft M lo) ++ (⟨lo, hi - lo, tag⟩ : Region T) :: (resRight M hi ++ B) :=
    insertKey_append
      (fun x hx => by
        rcases List.mem_append.mp hx with h1 | h1
        · have := (hAmem x h1).2
          show x.start < lo
          omega
        · exact (hLfacts x h1).2.2.1)
      (fun y hy => by
        rcases List.mem_append.mp hy with h1 | h1
        · have := (hRfacts y h1).1
          show lo < y.start
          omega
        · have := hBhi y h1
          show lo < y.start
          omega)
  have hput : put m lo hi tag
      = mergeAtOffset (mergeAtOffset
          (A ++ resLeft M lo ++ (⟨lo, hi - lo, tag⟩ : Region T)
            :: (resRight M hi ++ B)) lo) hi := by
    have hput0 : put m lo hi tag
        = mergeAtOffset (mergeAtOffset
            (insertKey ((keysIn m L hi).foldl (splitOne lo hi) m)
              (⟨lo, hi - lo, tag⟩ : Region T)) lo) hi := by
      rw [put, if_neg (by omega : ¬ hi ≤ lo)]
    rw [hput0, hks, hfold, hins]
  refine ⟨hAM, hput, fun a ha => (hAmem a ha).1, fun e he => (hMmem e he).1,
    fun b hb => (hBmem b hb).1, ?_, ?_, hLfacts, hLnil, hMtail, hRfacts, hRnil, hMstop,
    hBhi, ?_, fun e he => (hMmem e he).2.2⟩
  · intro a ha
    have h1 := hAstop0 a (hAmem a ha).1 (hAmem a ha).2
    omega
  · intro a ha l hl
    have h1 := hAstop0 a (hAmem a ha).1 (hAmem a ha).2
    obtain ⟨_, _, _, eh, hhd, hstart, _, _⟩ := hLfacts l hl
    have h2 := (hMmem eh (head?_min hMpair hhd).1).2.1
    omega
  · intro r hr b hb
    obtain ⟨_, _, el, hgl, hstop, _, _⟩ := hRfacts r hr
    have hel_mem := (getLast?_max hMpair hgl).1
    have h1 := hWF.disj_of_lt (hMmem el hel_mem).1 (hBmem b hb).1
      (by have := (hMmem el hel_mem).2.2; have := (hBmem b hb).2; omega)
    unfold Disj at h1
    omega

end DDare


namespace DDare

/-- Lists with at most one element are vacuously pairwise. -/
theorem pairwise_of_subsingleton {P : Region T → Region T → Prop} {l : TaggedRange T}
    (h : l = [] ∨ ∃ x, l = [x]) : l.Pairwise P := by
  rcases h with rfl | ⟨x, rfl⟩ <;> simp

/-- The left residual is empty or a single run. -/
theorem resLeft_shape {M : TaggedRange T} {lo : Nat} :
    resLeft M lo = [] ∨ ∃ x, resLeft M lo = [x] := by
  cases M with
  | nil => exact Or.inl rfl
  | cons e t =>
    rw [resLeft_cons]
    by_cases hs : e.start < lo
    · exact Or.inr ⟨_, if_pos hs⟩
    · exact Or.inl (if_neg hs)

/-- The right residual is empty or a single run. -/
theorem resRight_shape {M : TaggedRange T} {hi : Nat} :
    resRight M hi = [] ∨ ∃ x, resRight M hi = [x] := by
  cases hgl : M.getLast? with
  | none =>
    left
    rw [resRight, hgl]
  | some e =>
    have h : resRight M hi = if hi < e.stop then [⟨hi, e.stop - hi, e.tag⟩] else [] := by
      rw [resRight, hgl]
    rw [h]
    by_cases hs : hi < e.stop
    · exact Or.inr ⟨_, if_pos hs⟩
    · exact Or.inl (if_neg hs)

/-- `getLast?` of a one-element list. -/
theorem getLast?_single {r : Region T} : ([r] : TaggedRange T).getLast? = some r := rfl

/-- `put` on a well-formed map with a nonempty range: the result is
well-formed, reads back `tag` exactly on `[lo, hi)` and the old tag
elsewhere, and stays coalesced if the input was. -/
theorem put_props [DecidableEq T] {m : TaggedRange T} (hWF : WF m) {lo hi : Nat}
    (hlh : lo < hi) (tag : T) :
    WF (put m lo hi tag) ∧
    (∀ o, tagAt (put m lo hi tag) o
      = if lo ≤ o ∧ o < hi then some tag else tagAt m o) ∧
    (Coalesced m → Coalesced (put m lo hi tag)) := by
  obtain ⟨A, M, B, hAM, hput, hAm, hMm, hBm, hAstop, hAL, hLfacts, hLnil, hMtail,
    hRfacts, hRnil, hMstop, hBhi, hRB, hMhi⟩ := put_parts hWF hlh tag
  set nw : Region T := ⟨lo, hi - lo, tag⟩ with hnwdef
  have hnwstart : nw.start = lo := rfl
  have hnwstop : nw.stop = hi := by
    show lo + (hi - lo) = hi
    omega
  have hnwtag : nw.tag = tag := rfl
  have hnwlen : 0 < nw.length := by
    show 0 < hi - lo
    omega
  have hPm : (A ++ M ++ B).Pairwise Disj := hAM ▸ hWF.1
  rw [List.pairwise_append] at hPm
  obtain ⟨hPAM, hPB, hXAMB⟩ := hPm
  rw [List.pairwise_append] at hPAM
  obtain ⟨hPA, hPM, hXAM⟩ := hPAM
  have hWFM : WF M := ⟨hPM, fun e he => hWF.2 e (hMm e he)⟩
  have hMsorted := hWFM.sortedKeys
  have hApos : ∀ a ∈ A, a.start < lo := by
    intro a ha
    have h1 := hAstop a ha
    have h2 := hWF.2 a (hAm a ha)
    have h3 : a.stop = a.start + a.length := rfl
    omega
  have hWFN : WF (A ++ resLeft M lo ++ nw :: (resRight M hi ++ B)) := by
    constructor
    · rw [List.pairwise_append]
      refine ⟨?_, ?_, ?_⟩
      · rw [List.pairwise_append]
        exact ⟨hPA, pairwise_of_subsingleton resLeft_shape, hAL⟩
      · rw [List.pairwise_cons]
        constructor
        · intro y hy
          show nw.stop ≤ y.start
          rcases List.mem_append.mp hy with h1 | h1
          · have h2 := (hRfacts y h1).1
            omega
          · have h2 := hBhi y h1
            omega
        · rw [List.pairwise_append]
          exact ⟨pairwise_of_subsingleton resRight_shape, hPB, hRB⟩
      · intro x hx y hy
        have hxlo : x.stop ≤ lo := by
          rcases List.mem_append.mp hx with h1 | h1
          · exact hAstop x h1
          · exact le_of_eq (hLfacts x h1).1
        have hylo : lo ≤ y.start := by
          rcases List.mem_cons.mp hy with rfl | h1
          · omega
          · rcases List.mem_append.mp h1 with h2 | h2
            · have h3 := (hRfacts y h2).1
              omega
            · have h3 := hBhi y h2
              omega
        show x.stop ≤ y.start
        omega
    · intro e he
      rcases List.mem_append.mp he with h1 | h1
      · rcases List.mem_append.mp h1 with h2 | h2
        · exact hWF.2 e (hAm e h2)
        · exact (hLfacts e h2).2.1
      · rcases List.mem_cons.mp h1 with rfl | h2
        · exact hnwlen
        · rcases List.mem_append.mp h2 with h3 | h3
          · exact (hRfacts e h3).2.1
          · exact hWF.2 e (hBm e h3)
  have hTagN : ∀ o, tagAt (A ++ resLeft M lo ++ nw :: (resRight M hi ++ B)) o
      = if lo ≤ o ∧ o < hi then some tag else tagAt m o := by
    intro o
    rw [tagAt_append (A ++ resLeft M lo) (nw :: (resRight M hi ++ B)) o,
      tagAt_append A (resLeft M lo) o, tagAt_cons,
      tagAt_append (resRight M hi) B o, hnwstart, hnwstop, hnwtag]
    by_cases hc : lo ≤ o ∧ o < hi
    · rw [if_pos hc, if_pos hc]
      have hA0 : tagAt A o = none := tagAt_eq_none (fun e he => by
        intro hcov
        have h1 := hAstop e he
        omega)
      have hL0 : tagAt (resLeft M lo) o = none := tagAt_eq_none (fun e he => by
        intro hcov
        have h1 := (hLfacts e he).1
        omega)
      rw [hA0, hL0]
      rfl
    · rw [if_neg hc, if_neg hc]
      conv_rhs => rw [hAM]
      rw [tagAt_append (A ++ M) B o, tagAt_append A M o]
      rcases Nat.lt_or_ge o lo with hlt | hge
      · have hR0 : tagAt (resRight M hi) o = none := tagAt_eq_none (fun e he => by
          intro hcov
          have h1 := (hRfacts e he).1
          omega)
        have hB0 : tagAt B o = none := tagAt_eq_none (fun e he => by
          intro hcov
          have h1 := hBhi e he
          omega)
        rw [hR0, hB0]
        have hML : tagAt (resLeft M lo) o = tagAt M o := by
          rcases @resLeft_shape T M lo with hres | ⟨l, hres⟩
          · rw [hres, tagAt_nil]
            symm
            apply tagAt_eq_none
            intro e he hcov
            have h1 := hLnil hres e he
            omega
          · have hlmem : l ∈ resLeft M lo := by
              rw [hres]
              exact List.mem_singleton_self l
            obtain ⟨hlstop, hllen, hllt, eh, hhd, hlstart, hltag, hehstop⟩ := hLfacts l hlmem
            have hehmem : eh ∈ M := (head?_min hMsorted hhd).1
            rw [hres, tagAt_cons, tagAt_nil]
            by_cases hcov : eh.start ≤ o
            · rw [if_pos ⟨by omega, by omega⟩, hltag]
              symm
              exact tagAt_of_covers hWFM hehmem ⟨hcov, by omega⟩
            · rw [if_neg (by omega : ¬(l.start ≤ o ∧ o < l.stop))]
              symm
              apply tagAt_eq_none
              intro e he hcov2
              rcases hMtail e he with h1 | h1
              · rw [hhd] at h1
                obtain rfl := Option.some_inj.mp h1
                omega
              · omega
        rw [hML]
        simp only [Option.or_none]
      · have hge2 : hi ≤ o := by omega
        have hA0 : tagAt A o = none := tagAt_eq_none (fun e he => by
          intro hcov
          have h1 := hAstop e he
          omega)
        have hL0 : tagAt (resLeft M lo) o = none := tagAt_eq_none (fun e he => by
          intro hcov
          have h1 := (hLfacts e he).1
          omega)
        rw [hA0, hL0]
        have hMR : tagAt (resRight M hi) o = tagAt M o := by
          rcases @resRight_shape T M hi with hres | ⟨r, hres⟩
          · rw [hres, tagAt_nil]
            symm
            apply tagAt_eq_none
            intro e he hcov
            have h1 := hRnil hres e he
            omega
          · have hrmem : r ∈ resRight M hi := by
              rw [hres]
              exact List.mem_singleton_self r
            obtain ⟨hrstart, hrlen, el, hgl, hrstop, hrtag, hielstop⟩ := hRfacts r hrmem
            have helmem : el ∈ M := (getLast?_max hMsorted hgl).1
            have helhi : el.start < hi := hMhi el helmem
            rw [hres, tagAt_cons, tagAt_nil]
            by_cases hcov : o < el.stop
            · rw [if_pos ⟨by omega, by omega⟩, hrtag]
              symm
              exact tagAt_of_covers hWFM helmem ⟨by omega, hcov⟩
            · rw [if_neg (by omega : ¬(r.start ≤ o ∧ o < r.stop))]
              symm
              apply tagAt_eq_none
              intro e he hcov2
              rcases hMstop e he with h1 | h1
              · rw [hgl] at h1
                obtain rfl := Option.some_inj.mp h1
                omega
              · omega
        rw [hMR]
        simp only [Option.none_or]
  rw [hput]
  have h1 := mergeAtOffset_props hWFN lo
  have h2 := mergeAtOffset_props h1.1 hi
  refine ⟨h2.1, ?_, ?_⟩
  · intro o
    rw [h2.2 o, h1.2 o, hTagN o]
  · intro hcoal
    have hCm : List.Chain' (fun a b : Region T => a.stop = b.start → a.tag ≠ b.tag)
        (A ++ M ++ B) := by
      rw [← hAM]
      exact hcoal
    obtain ⟨hCAM, hCB, hlink2⟩ := List.chain'_append.mp hCm
    obtain ⟨hCA, hCM, hlink1⟩ := List.chain'_append.mp hCAM
    have hcX1 : List.Chain' (fun a b : Region T => a.stop = b.start → a.tag ≠ b.tag)
        (A ++ resLeft M lo) := by
      rcases @resLeft_shape T M lo with hres | ⟨l, hres⟩
      · rw [hres, List.append_nil]
        exact hCA
      · rw [hres]
        refine List.chain'_append.mpr ⟨hCA, List.chain'_singleton _, ?_⟩
        intro x hx y hy
        simp only [List.head?_cons, Option.mem_def, Option.some_inj] at hy
        subst hy
        obtain ⟨hlstop, hllen, hllt, eh, hhd, hlstart, hltag, hehstop⟩ :=
          hLfacts l (by rw [hres]; exact List.mem_singleton_self l)
        intro hstop2 htags
        exact hlink1 x hx eh hhd (by omega) (htags.trans hltag)
    have hcY2 : List.Chain' (fun a b : Region T => a.stop = b.start → a.tag ≠ b.tag)
        (resRight M hi ++ B) := by
      rcases @resRight_shape T M hi with hres | ⟨r, hres⟩
      · rw [hres, List.nil_append]
        exact hCB
      · rw [hres]
        refine List.chain'_append.mpr ⟨List.chain'_singleton _, hCB, ?_⟩
        intro x hx y hy
        simp only [getLast?_single, Option.mem_def, Option.some_inj] at hx
        subst hx
        obtain ⟨hrstart, hrlen, el, hgl, hrstop, hrtag, hielstop⟩ :=
          hRfacts r (by rw [hres]; exact List.mem_singleton_self r)
        have hMne : M ≠ [] := by
          intro h0
          rw [h0] at hgl
          cases hgl
        have hglAM : (A ++ M).getLast? = some el := by
          rw [List.getLast?_append_of_ne_nil A hMne]
          exact hgl
        intro hstop2 htags
        exact hlink2 el hglAM y hy (by omega) (hrtag.symm.trans htags)
    have hsorted1 := hWFN.sortedKeys
    obtain ⟨P1, c', hN1, hc's, hc't, hc'le, hP1X, hP1lt, hP1chain⟩ :=
      @mergeAtOffset_left_shape T _ (A ++ resLeft M lo) (resRight M hi ++ B) nw lo hsorted1
        (fun x hx => by
          rcases List.mem_append.mp hx with h1 | h1
          · exact hApos x h1
          · exact (hLfacts x h1).2.2.1)
        (le_of_eq hnwstart.symm)
        (fun y hy => by
          rcases List.mem_append.mp hy with h1 | h1
          · have h2 := (hRfacts y h1).1
            omega
          · have h2 := hBhi y h1
            omega)
    rw [hN1]
    have hassoc : P1 ++ c' :: (resRight M hi ++ B)
        = (P1 ++ [c']) ++ (resRight M hi ++ B) := by
      simp
    rw [hassoc]
    have hWFN1 : WF (P1 ++ c' :: (resRight M hi ++ B)) := hN1 ▸ h1.1
    rw [hassoc] at hWFN1
    show List.Chain' (fun a b : Region T => a.stop = b.start → a.tag ≠ b.tag) _
    exact mergeAtOffset_coal hWFN1.sortedKeys
      (fun x hx => by
        rcases List.mem_append.mp hx with h1 | h1
        · have h2 := hP1lt x h1
          omega
        · rcases List.mem_singleton.mp h1 with rfl
          omega)
      (fun y hy => by
        rcases List.mem_append.mp hy with h1 | h1
        · have h2 := (hRfacts y h1).1
          omega
        · exact hBhi y h1)
      (hP1chain hcX1)
      hcY2

end DDare


namespace DDare

/-- `put` with an empty range is the identity (the `hi <= lo` early
return). -/
theorem put_id [DecidableEq T] {m : TaggedRange T} {lo hi : Nat} (h : hi ≤ lo) (tag : T) :
    put m lo hi tag = m := by
  rw [put, if_pos h]

/-- Every reachable map is well-formed and coalesced. -/
theorem reachable_wf_coal [DecidableEq T] {m : TaggedRange T} (h : Reachable m) :
    WF m ∧ Coalesced m := by
  induction h with
  | nil => exact ⟨⟨List.Pairwise.nil, by simp⟩, List.chain'_nil⟩
  | @step m' lo hi t hr hle ih =>
    by_cases hlt : lo < hi
    · exact ⟨(put_props ih.1 hlt t).1, (put_props ih.1 hlt t).2.2 ih.2⟩
    · rw [put_id (by omega) t]
      exact ih

/-- Peeling the last operation off a `buildMap` fold. -/
theorem buildMap_append [DecidableEq T] (ops : List (Nat × Nat × T)) (op : Nat × Nat × T) :
    buildMap (ops ++ [op]) = put (buildMap ops) op.1 op.2.1 op.2.2 := by
  rw [buildMap, List.foldl_append]
  rfl

/-- Maps built from well-ordered operation lists are reachable. -/
theorem buildMap_reachable [DecidableEq T] {ops : List (Nat × Nat × T)}
    (h : ∀ op ∈ ops, op.1 ≤ op.2.1) : Reachable (buildMap ops) := by
  induction ops using List.reverseRecOn with
  | nil => exact Reachable.nil
  | append_singleton ops op ih =>
    rw [buildMap_append]
    exact Reachable.step (ih (fun x hx => h x (List.mem_append_left _ hx)))
      (h op (List.mem_append_right _ (List.mem_singleton_self op)))

/-- Peeling the last operation off `lastPutTag`. -/
theorem lastPutTag_append (ops : List (Nat × Nat × T)) (op : Nat × Nat × T) (off : Nat) :
    lastPutTag (ops ++ [op]) off
      = if op.1 ≤ off ∧ off < op.2.1 then some op.2.2 else lastPutTag ops off := by
  by_cases hc : op.1 ≤ off ∧ off < op.2.1
  · rw [if_pos hc, lastPutTag, List.filter_append]
    have h1 : List.filter (fun o => decide (o.1 ≤ off ∧ off < o.2.1)) [op] = [op] := by
      simp [hc]
    rw [h1, List.getLast?_append_of_ne_nil _ (List.cons_ne_nil op [])]
    rfl
  · rw [if_neg hc, lastPutTag, lastPutTag, List.filter_append]
    have h1 : List.filter (fun o => decide (o.1 ≤ off ∧ off < o.2.1)) [op] = [] := by
      simp [hc]
    rw [h1, List.append_nil]

/-- The tag a built map holds at an offset is the tag of the most recent
operation covering it. -/
theorem buildMap_tagAt [DecidableEq T] (ops : List (Nat × Nat × T)) (off : Nat) :
    (∀ op ∈ ops, op.1 ≤ op.2.1) → tagAt (buildMap ops) off = lastPutTag ops off := by
  induction ops using List.reverseRecOn with
  | nil => intro _; rfl
  | append_singleton ops op ih =>
    intro h
    have hops : ∀ x ∈ ops, x.1 ≤ x.2.1 := fun x hx => h x (List.mem_append_left _ hx)
    have hWFb : WF (buildMap ops) := (reachable_wf_coal (buildMap_reachable hops)).1
    rw [buildMap_append, lastPutTag_append]
    by_cases hlt : op.1 < op.2.1
    · rw [(put_props hWFb hlt op.2.2).2.1 off, ih hops]
    · have heq : op.2.1 ≤ op.1 := by omega
      rw [put_id heq op.2.2, ih hops, if_neg (by omega)]

/-- In a well-formed coalesced map, any two runs that touch (the first
ends where the second begins) carry different tags. -/
theorem coalesced_pairs {e1 e2 : Region T} :
    ∀ {m : TaggedRange T}, WF m → Coalesced m → e1 ∈ m → e2 ∈ m →
      e1.stop = e2.start → e1.tag ≠ e2.tag := by
  intro m
  induction m with
  | nil =>
    intro _ _ h1
    cases h1
  | cons a rest ih =>
    intro hWF hcoal h1 h2 hadj
    have hpos_a := hWF.2 a (List.mem_cons_self a rest)
    have hstopa : a.stop = a.start + a.length := rfl
    rcases List.mem_cons.mp h1 with rfl | h1r
    · rcases List.mem_cons.mp h2 with heq | h2r
      · exfalso
        rw [heq] at hadj
        omega
      · cases rest with
        | nil => cases h2r
        | cons b t =>
          rcases List.mem_cons.mp h2r with rfl | h2t
          · exact (List.chain'_cons.mp hcoal).1 hadj
          · exfalso
            have hWFr : WF (b :: t) := WF.of_cons hWF
            have hab : Disj e1 b := (List.pairwise_cons.mp hWF.1).1 b (List.mem_cons_self b t)
            have hsorted := hWF.sortedKeys
            have hbe2 : b.start < e2.start :=
              (List.pairwise_cons.mp (List.pairwise_cons.mp hsorted).2).1 e2 h2t
            have hbstop := hWFr.disj_of_lt (List.mem_cons_self b t)
              (List.mem_cons_of_mem b h2t) hbe2
            have hposb := hWF.2 b (List.mem_cons_of_mem e1 (List.mem_cons_self b t))
            have hbstopeq : b.stop = b.start + b.length := rfl
            unfold Disj at hab
            omega
    · rcases List.mem_cons.mp h2 with rfl | h2r
      · exfalso
        have hsorted := hWF.sortedKeys
        have h3 := (List.pairwise_cons.mp hsorted).1 e1 h1r
        have hpos1 := hWF.2 e1 (List.mem_cons_of_mem e2 h1r)
        have hstop1 : e1.stop = e1.start + e1.length := rfl
        omega
      · exact ih (WF.of_cons hWF) (List.Chain'.tail hcoal) h1r h2r hadj

/-- If the map holds no tag at an offset, no run covers it. -/
theorem tagAt_none_covers {m : TaggedRange T} (hWF : WF m) {off : Nat}
    (h : tagAt m off = none) {e : Region T} (he : e ∈ m) :
    ¬(e.start ≤ off ∧ off < e.stop) := by
  intro hcov
  rw [tagAt_of_covers hWF he hcov] at h
  cases h

/-- At most one run covers an offset in a well-formed map. -/
theorem covers_unique {m : TaggedRange T} (hWF : WF m) {a e : Region T} (ha : a ∈ m)
    (he : e ∈ m) {off : Nat} (hca : a.start ≤ off ∧ off < a.stop)
    (hce : e.start ≤ off ∧ off < e.stop) : a = e := by
  rcases Nat.lt_trichotomy a.start e.start with h | h | h
  · exfalso
    have := hWF.disj_of_lt ha he h
    omega
  · exact hWF.key_inj ha he h
  · exfalso
    have := hWF.disj_of_lt he ha h
    omega

/-- The tag reported through `iter_range(off..off+1)` is the tag of the
run covering `off`: the query API agrees with the pointwise reading. -/
theorem reportedTag_eq_tagAt {m : TaggedRange T} (hWF : WF m) (off : Nat) :
    reportedTag m off = tagAt m off := by
  cases ht : tagAt m off with
  | some t =>
    obtain ⟨e, hem, hcov, htag⟩ := (tagAt_iff hWF).mp ht
    have hLe : coveringStart m off ≤ e.start := by
      cases hmb : maxBelow m off with
      | none =>
        have hL : coveringStart m off = off := by rw [coveringStart, hmb]
        have h1 := maxBelow_none hmb e hem
        omega
      | some a =>
        obtain ⟨ham, halt, hamax⟩ := maxBelow_some hWF.sortedKeys hmb
        by_cases hov : off < a.stop
        · have hL : coveringStart m off = a.start := by
            rw [coveringStart, hmb]
            exact if_pos hov
          have hae : a = e := covers_unique hWF ham hem ⟨by omega, hov⟩ hcov
          rw [hL, hae]
        · have hL : coveringStart m off = off := by
            rw [coveringStart, hmb]
            exact if_neg hov
          rw [hL]
          by_contra hlt
          push_neg at hlt
          have h1 := hamax e hem hlt
          rcases Nat.lt_trichotomy e.start a.start with h2 | h2 | h2
          · have h3 := hWF.disj_of_lt hem ham h2
            omega
          · have h3 := hWF.key_inj hem ham h2
            rw [h3] at hcov
            omega
          · omega
    have hall : ∀ x ∈ m, coveringStart m off ≤ x.start → x.start < off + 1 → x = e := by
      intro x hxm hxL hxlt
      by_cases hxc : off < x.stop
      · exact covers_unique hWF hxm hem ⟨by omega, hxc⟩ hcov
      · exfalso
        have hxpos := hWF.2 x hxm
        have hxs : x.stop = x.start + x.length := rfl
        cases hmb : maxBelow m off with
        | none =>
          have h1 := maxBelow_none hmb x hxm
          omega
        | some a =>
          obtain ⟨ham, halt, hamax⟩ := maxBelow_some hWF.sortedKeys hmb
          by_cases hov : off < a.stop
          · have hL : coveringStart m off = a.start := by
              rw [coveringStart, hmb]
              exact if_pos hov
            have hae : a = e := covers_unique hWF ham hem ⟨by omega, hov⟩ hcov
            rw [hL, hae] at hxL
            rcases Nat.lt_trichotomy e.start x.start with h2 | h2 | h2
            · have h3 := hWF.disj_of_lt hem hxm h2
              omega
            · have h3 := hWF.key_inj hem hxm h2
              rw [h3] at hcov
              omega
            · omega
          · have hL : coveringStart m off = off := by
              rw [coveringStart, hmb]
              exact if_neg hov
            rw [hL] at hxL
            omega
    have hmemf : e ∈ m.filter
        (fun x => decide (coveringStart m off ≤ x.start ∧ x.start < off + 1)) :=
      List.mem_filter.mpr ⟨hem, by
        simp only [decide_eq_true_eq]
        exact ⟨hLe, by omega⟩⟩
    cases hf : m.filter
        (fun x => decide (coveringStart m off ≤ x.start ∧ x.start < off + 1)) with
    | nil =>
      rw [hf] at hmemf
      cases hmemf
    | cons hd tl =>
      have hhm : hd ∈ m.filter
          (fun x => decide (coveringStart m off ≤ x.start ∧ x.start < off + 1)) := by
        rw [hf]
        exact List.mem_cons_self hd tl
      have hcond : coveringStart m off ≤ hd.start ∧ hd.start < off + 1 := by
        simpa using List.of_mem_filter hhm
      have hhe : hd = e := hall hd (List.mem_of_mem_filter hhm) hcond.1 hcond.2
      rw [reportedTag, iterRange, hf, List.map_cons]
      show some hd.tag = some t
      rw [hhe, htag]
  | none =>
    have hnone : ∀ x ∈ m, ¬(coveringStart m off ≤ x.start ∧ x.start < off + 1) := by
      intro x hxm hcond
      have hxc := tagAt_none_covers hWF ht hxm
      have hxpos := hWF.2 x hxm
      have hxs : x.stop = x.start + x.length := rfl
      cases hmb : maxBelow m off with
      | none =>
        have hL : coveringStart m off = off := by rw [coveringStart, hmb]
        have h1 := maxBelow_none hmb x hxm
        rw [hL] at hcond
        omega
      | some a =>
        obtain ⟨ham, halt, hamax⟩ := maxBelow_some hWF.sortedKeys hmb
        by_cases hov : off < a.stop
        · exact absurd ⟨by omega, hov⟩ (tagAt_none_covers hWF ht ham)
        · have hL : coveringStart m off = off := by
            rw [coveringStart, hmb]
            exact if_neg hov
          rw [hL] at hcond
          omega
    have hf : m.filter
        (fun x => decide (coveringStart m off ≤ x.start ∧ x.start < off + 1)) = [] :=
      List.filter_eq_nil_iff.mpr (fun x hx => by simpa using hnone x hx)
    rw [reportedTag, iterRange, hf]
    rfl

end DDare


namespace DDare

/-- C1: for every reachable `TaggedRange`, every range `[lo, hi)` with
`hi >= lo` and every tag, after `put` each offset in `[lo, hi)` reports
`tag` and each offset outside reports what it reported before; for any
sequence of `put`s the tag at an offset is that of the most recent
operation covering it; and `hi = lo` leaves the map unchanged. -/
theorem c1_put_pointwise {T : Type} [DecidableEq T] {m : TaggedRange T} (hm : Reachable m)
    {lo hi : Nat} (hle : lo ≤ hi) (tag : T) :
    (∀ off, lo ≤ off → off < hi → reportedTag (put m lo hi tag) off = some tag) ∧
    (∀ off, off < lo ∨ hi ≤ off → reportedTag (put m lo hi tag) off = reportedTag m off) ∧
    (hi = lo → put m lo hi tag = m) ∧
    (∀ ops : List (Nat × Nat × T), (∀ op ∈ ops, op.1 ≤ op.2.1) →
      ∀ off, tagAt (buildMap ops) off = lastPutTag ops off) := by
  have hWFm : WF m := (reachable_wf_coal hm).1
  refine ⟨?_, ?_, ?_, ?_⟩
  · intro off h1 h2
    have hlt : lo < hi := by omega
    rw [reportedTag_eq_tagAt (put_props hWFm hlt tag).1 off,
      (put_props hWFm hlt tag).2.1 off, if_pos ⟨h1, h2⟩]
  · intro off hcase
    by_cases hlt : lo < hi
    · rw [reportedTag_eq_tagAt (put_props hWFm hlt tag).1 off,
        reportedTag_eq_tagAt hWFm off, (put_props hWFm hlt tag).2.1 off,
        if_neg (by omega)]
    · rw [put_id (by omega) tag]
  · intro heq
    exact put_id (le_of_eq heq) tag
  · intro ops hops off
    exact buildMap_tagAt ops off hops

/-- C1 witness: on the empty map, `put [0,4) 7` reports `7` inside the
range and the prior (absent) tag outside, and a two-put sequence reads
back as its most recent covering operation. -/
theorem c1_put_pointwise_witness :
    reportedTag (put ([] : TaggedRange Nat) 0 4 7) 2 = some 7 ∧
    reportedTag (put ([] : TaggedRange Nat) 0 4 7) 5 = reportedTag ([] : TaggedRange Nat) 5 ∧
    tagAt (buildMap [(0, 3, 10), (1, 2, 20)]) 1 = lastPutTag [(0, 3, 10), (1, 2, 20)] 1 :=
  ⟨(@c1_put_pointwise Nat _ [] Reachable.nil 0 4 (by decide) 7).1 2 (by decide) (by decide),
   (@c1_put_pointwise Nat _ [] Reachable.nil 0 4 (by decide) 7).2.1 5 (Or.inr (by decide)),
   (@c1_put_pointwise Nat _ [] Reachable.nil 0 4 (by decide) 7).2.2.2 [(0, 3, 10), (1, 2, 20)]
     (by decide) 1⟩

/-- C7: after any sequence of `put` operations, no two runs of the map
that touch (the first run's start plus its length equals the second
run's start) carry equal tags. -/
theorem c7_no_adjacent_equal_tags {T : Type} [DecidableEq T]
    (ops : List (Nat × Nat × T)) (hops : ∀ op ∈ ops, op.1 ≤ op.2.1)
    {e1 e2 : Region T} (h1 : e1 ∈ buildMap ops) (h2 : e2 ∈ buildMap ops)
    (hadj : e1.start + e1.length = e2.start) : e1.tag ≠ e2.tag := by
  obtain ⟨hWFb, hcoal⟩ := reachable_wf_coal (buildMap_reachable hops)
  exact coalesced_pairs hWFb hcoal h1 h2 hadj

/-- C7 witness: the two touching runs left by `put [0,2) 0; put [2,4) 1`
carry different tags. -/
theorem c7_no_adjacent_equal_tags_witness :
    (⟨0, 2, 0⟩ : Region Nat).tag ≠ (⟨2, 2, 1⟩ : Region Nat).tag :=
  c7_no_adjacent_equal_tags [(0, 2, 0), (2, 4, 1)] (by decide)
    (by decide) (by decide) (by decide)

end DDare


namespace DDare

/-- C9: on a completion with positive `result`, an all-zeros buffer
leaves the destination untouched at every offset while the map still
tags `[offset, offset + result)` `Rescued` (and other offsets keep their
tag); a buffer with a non-zero byte writes exactly the first `result`
bytes at `offset` and leaves every other destination byte unchanged. -/
theorem c9_zero_skip_sparseness {st : EngineState} (hWF : WF st.mapRuns)
    {t : SectorState} {r : Req} (hres : 0 < r.result)
    (hbuf : r.result.toNat ≤ r.buffer.length) :
    (r.isDataZeros = true →
      ∀ a, (applyCompletion st t r).dest a = st.dest a) ∧
    (∀ o, r.offset ≤ o → o < r.offset + r.result.toNat →
      tagAt (applyCompletion st t r).mapRuns o = some SectorState.Rescued) ∧
    (∀ o, o < r.offset ∨ r.offset + r.result.toNat ≤ o →
      tagAt (applyCompletion st t r).mapRuns o = tagAt st.mapRuns o) ∧
    (r.isDataZeros = false →
      (∀ a, r.offset ≤ a → a < r.offset + r.result.toNat →
        (applyCompletion st t r).dest a = r.getData.getD (a - r.offset) 0) ∧
      (∀ a, a < r.offset ∨ r.offset + r.result.toNat ≤ a →
        (applyCompletion st t r).dest a = st.dest a)) := by
  have hmap : (applyCompletion st t r).mapRuns
      = put st.mapRuns r.offset (r.offset + r.result.toNat) SectorState.Rescued := by
    rw [applyCompletion, if_pos hres]
  have hdest : (applyCompletion st t r).dest
      = if r.isDataZeros then st.dest else writeBytes st.dest r.offset r.getData := by
    rw [applyCompletion, if_pos hres]
  have hlt : r.offset < r.offset + r.result.toNat := by omega
  have hlen : r.getData.length = r.result.toNat := by
    rw [Req.getData, if_neg (by omega)]
    rw [List.length_take]
    omega
  refine ⟨?_, ?_, ?_, ?_⟩
  · intro hz a
    rw [hdest, if_pos hz]
  · intro o h1 h2
    rw [hmap, (put_props hWF hlt SectorState.Rescued).2.1 o, if_pos ⟨h1, h2⟩]
  · intro o hcase
    rw [hmap, (put_props hWF hlt SectorState.Rescued).2.1 o, if_neg (by omega)]
  · intro hnz
    constructor
    · intro a h1 h2
      rw [hdest, if_neg (by rw [hnz]; exact Bool.false_ne_true)]
      show (if r.offset ≤ a ∧ a < r.offset + r.getData.length
        then r.getData.getD (a - r.offset) 0 else st.dest a) = r.getData.getD (a - r.offset) 0
      rw [if_pos ⟨h1, by omega⟩]
    · intro a hcase
      rw [hdest, if_neg (by rw [hnz]; exact Bool.false_ne_true)]
      show (if r.offset ≤ a ∧ a < r.offset + r.getData.length
        then r.getData.getD (a - r.offset) 0 else st.dest a) = st.dest a
      rw [if_neg (by omega)]

end DDare

namespace DDare

/-- C9 witness: an 8-byte all-zeros completion leaves destination byte 3
untouched yet tags offset 3 `Rescued`; the same completion with a leading
`9` writes that byte at offset 0. -/
theorem c9_zero_skip_sparseness_witness :
    (applyCompletion ⟨[⟨0, 8, SectorState.Untried⟩], fun _ => 0, fun _ => 5⟩
        SectorState.Untried ⟨0, 8, 8, List.replicate 8 0⟩).dest 3 = 5 ∧
    tagAt (applyCompletion ⟨[⟨0, 8, SectorState.Untried⟩], fun _ => 0, fun _ => 5⟩
        SectorState.Untried ⟨0, 8, 8, List.replicate 8 0⟩).mapRuns 3
      = some SectorState.Rescued ∧
    (applyCompletion ⟨[⟨0, 8, SectorState.Untried⟩], fun _ => 0, fun _ => 5⟩
        SectorState.Untried ⟨0, 8, 8, 9 :: List.replicate 7 0⟩).dest 0 = 9 := by
  refine ⟨?_, ?_, ?_⟩
  · exact (@c9_zero_skip_sparseness
      ⟨[⟨0, 8, SectorState.Untried⟩], fun _ => 0, fun _ => 5⟩ ⟨by simp, by decide⟩
      SectorState.Untried ⟨0, 8, 8, List.replicate 8 0⟩ (by decide) (by decide)).1 rfl 3
  · exact (@c9_zero_skip_sparseness
      ⟨[⟨0, 8, SectorState.Untried⟩], fun _ => 0, fun _ => 5⟩ ⟨by simp, by decide⟩
      SectorState.Untried ⟨0, 8, 8, List.replicate 8 0⟩ (by decide) (by decide)).2.1 3
      (by decide) (by decide)
  · rw [((@c9_zero_skip_sparseness
      ⟨[⟨0, 8, SectorState.Untried⟩], fun _ => 0, fun _ => 5⟩ ⟨by simp, by decide⟩
      SectorState.Untried ⟨0, 8, 8, 9 :: List.replicate 7 0⟩ (by decide)
      (by decide)).2.2.2 rfl).1 0 (by decide) (by decide)]
    rfl

end DDare

namespace DDare

/-- Members of `insertKey` are the new run or members of the old list. -/
theorem mem_insertKey {m : TaggedRange T} {r x : Region T} (h : x ∈ insertKey m r) :
    x = r ∨ x ∈ m := by
  induction m with
  | nil =>
    rw [insertKey] at h
    rcases List.mem_singleton.mp h with rfl
    exact Or.inl rfl
  | cons e rest ih =>
    rw [insertKey] at h
    by_cases h1 : r.start < e.start
    · rw [if_pos h1] at h
      rcases List.mem_cons.mp h with rfl | h2
      · exact Or.inl rfl
      · exact Or.inr h2
    · rw [if_neg h1] at h
      by_cases h2 : r.start = e.start
      · rw [if_pos h2] at h
        rcases List.mem_cons.mp h with rfl | h3
        · exact Or.inl rfl
        · exact Or.inr (List.mem_cons_of_mem e h3)
      · rw [if_neg h2] at h
        rcases List.mem_cons.mp h with rfl | h3
        · exact Or.inr (List.mem_cons_self x rest)
        · rcases ih h3 with h4 | h4
          · exact Or.inl h4
          · exact Or.inr (List.mem_cons_of_mem e h4)

/-- `getLast?` yields a member. -/
theorem getLast?_mem {l : TaggedRange T} {a : Region T} (h : l.getLast? = some a) :
    a ∈ l := by
  induction l with
  | nil => cases h
  | cons x tl ih =>
    cases tl with
    | nil =>
      rw [getLast?_single] at h
      obtain rfl := Option.some_inj.mp h
      exact List.mem_singleton_self _
    | cons y tl2 =>
      rw [List.getLast?_cons_cons] at h
      exact List.mem_cons_of_mem x (ih h)

/-- `minFrom` yields a member. -/
theorem minFrom_mem {m : TaggedRange T} {k : Nat} {b : Region T}
    (h : minFrom m k = some b) : b ∈ m := by
  rw [minFrom] at h
  cases hf : m.filter (fun e => decide (k ≤ e.start)) with
  | nil =>
    rw [hf] at h
    cases h
  | cons x tl =>
    rw [hf, List.head?_cons] at h
    obtain rfl := Option.some_inj.mp h
    exact List.mem_of_mem_filter (by rw [hf]; exact List.mem_cons_self _ _)

/-- `merge_at_offset` never pushes a run's end past an upper bound. -/
theorem mergeAtOffset_stop_bound [DecidableEq T] {m : TaggedRange T} {off N : Nat}
    (h : ∀ e ∈ m, e.stop ≤ N) : ∀ e ∈ mergeAtOffset m off, e.stop ≤ N := by
  intro e he
  cases hmb : maxBelow m off with
  | none =>
    have hm : mergeAtOffset m off = m := by rw [mergeAtOffset, hmb]
    rw [hm] at he
    exact h e he
  | some a =>
    cases hmf : minFrom m off with
    | none =>
      have hm : mergeAtOffset m off = m := by rw [mergeAtOffset, hmb, hmf]
      rw [hm] at he
      exact h e he
    | some b =>
      have hm : mergeAtOffset m off
          = if a.stop = b.start ∧ a.tag = b.tag
            then insertKey (removeKey (removeKey m a.start) b.start)
              ⟨a.start, a.length + b.length, a.tag⟩
            else m := by
        rw [mergeAtOffset, hmb, hmf]
      rw [hm] at he
      by_cases hc : a.stop = b.start ∧ a.tag = b.tag
      · rw [if_pos hc] at he
        rcases mem_insertKey he with rfl | h2
        · have hbm : b ∈ m := minFrom_mem hmf
          have ha2 : a.stop = a.start + a.length := rfl
          have hb2 : b.stop = b.start + b.length := rfl
          have h3 := h b hbm
          show a.start + (a.length + b.length) ≤ N
          omega
        · exact h e (List.mem_of_mem_filter (List.mem_of_mem_filter h2))
      · rw [if_neg hc] at he
        exact h e he

/-- `put` never pushes a run's end past a bound that dominates the old
runs and the new range. -/
theorem put_stop_bound [DecidableEq T] {m : TaggedRange T} (hWF : WF m) {lo hi N : Nat}
    (hlh : lo < hi) (tag : T) (hN : ∀ e ∈ m, e.stop ≤ N) (hhi : hi ≤ N) :
    ∀ e ∈ put m lo hi tag, e.stop ≤ N := by
  obtain ⟨A, M, B, hAM, hput, hAm, hMm, hBm, hAstop, hAL, hLfacts, hLnil, hMtail,
    hRfacts, hRnil, hMstop, hBhi, hRB, hMhi⟩ := put_parts hWF hlh tag
  rw [hput]
  apply mergeAtOffset_stop_bound
  apply mergeAtOffset_stop_bound
  intro e he
  rcases List.mem_append.mp he with h1 | h1
  · rcases List.mem_append.mp h1 with h2 | h2
    · exact hN e (hAm e h2)
    · have h3 := (hLfacts e h2).1
      omega
  · rcases List.mem_cons.mp h1 with rfl | h2
    · show lo + (hi - lo) ≤ N
      omega
    · rcases List.mem_append.mp h2 with h3 | h3
      · obtain ⟨_, _, el, hgl, hstop, _, _⟩ := hRfacts e h3
        have h4 := hN el (hMm el (getLast?_mem hgl))
        omega
      · exact hN e (hBm e h3)

/-- `iter()` is the identity on maps whose runs end below `2^64 - 1`. -/
theorem iterAll_eq_self {m : TaggedRange T} (h : ∀ e ∈ m, e.stop ≤ U64LIMIT - 1) :
    iterAll m = m := by
  rw [iterAll]
  conv_rhs => rw [← List.map_id m]
  apply List.map_congr_left
  intro e he
  have h1 := h e he
  have h2 : e.stop = e.start + e.length := rfl
  have hmax : max e.start 0 = e.start := by omega
  have hmin : min e.stop (U64LIMIT - 1) = e.stop := by omega
  rw [hmax, hmin]
  have hlen : e.stop - e.start = e.length := by omega
  rw [hlen]
  rfl

/-- The histogram fold adds, per state, the lengths of the runs carrying
that state. -/
theorem hist_fold (l : TaggedRange SectorState) (h0 : SectorState → Nat) (s : SectorState) :
    l.foldl (fun h r => fun s => if s = r.tag then h s + r.length else h s) h0 s
      = h0 s + ((l.filter (fun e => e.tag = s)).map Region.length).sum := by
  induction l generalizing h0 with
  | nil => simp
  | cons e rest ih =>
    rw [List.foldl_cons, ih]
    show (if s = e.tag then h0 s + e.length else h0 s) + _ = _
    by_cases hc : e.tag = s
    · rw [if_pos hc.symm, List.filter_cons_of_pos (by simpa using hc), List.map_cons,
        List.sum_cons]
      omega
    · rw [if_neg (fun hs => hc hs.symm), List.filter_cons_of_neg (by simpa using hc)]

/-- `get_histogram` is the per-state sum of run lengths. -/
theorem getHistogram_eq_sum {m : TaggedRange SectorState}
    (h : ∀ e ∈ m, e.stop ≤ U64LIMIT - 1) (s : SectorState) :
    getHistogram m s = ((m.filter (fun e => e.tag = s)).map Region.length).sum := by
  rw [getHistogram, iterAll_eq_self h, hist_fold]
  exact Nat.zero_add _

/-- Splitting an arithmetic segment at an interior point. -/
theorem range'_split (a n k : Nat) (h : k ≤ n) :
    List.range' a n = List.range' a k ++ List.range' (a + k) (n - k) := by
  have h1 := List.range'_append a k (n - k) 1
  rw [one_mul] at h1
  have h2 : n = (n - k) + k := by omega
  conv_lhs => rw [h2]
  exact h1.symm

/-- On a well-formed map confined to `[a, a+n)`, the per-state sum of run
lengths counts the offsets of that segment holding the state. -/
theorem count_tag_segment {s : SectorState} :
    ∀ m : TaggedRange SectorState, WF m → ∀ a n : Nat,
      (∀ e ∈ m, a ≤ e.start ∧ e.stop ≤ a + n) →
      (List.range' a n).countP (fun o => decide (tagAt m o = some s))
        = ((m.filter (fun e => e.tag = s)).map Region.length).sum := by
  intro m
  induction m with
  | nil =>
    intro _ a n _
    simp [tagAt_nil]
  | cons e rest ih =>
    intro hWF a n hseg
    obtain ⟨hae, hstop⟩ := hseg e (List.mem_cons_self e rest)
    have hpose := hWF.2 e (List.mem_cons_self e rest)
    have hstopeq : e.stop = e.start + e.length := rfl
    have hrestlo : ∀ x ∈ rest, e.stop ≤ x.start := by
      intro x hx
      exact (List.pairwise_cons.mp hWF.1).1 x hx
    have hsplit1 : List.range' a n
        = List.range' a (e.start - a) ++ List.range' (a + (e.start - a)) (n - (e.start - a)) :=
      range'_split a n (e.start - a) (by omega)
    have hstart : a + (e.start - a) = e.start := by omega
    rw [hstart] at hsplit1
    have hsplit2 : List.range' e.start (n - (e.start - a))
        = List.range' e.start e.length
          ++ List.range' (e.start + e.length) (n - (e.start - a) - e.length) :=
      range'_split e.start (n - (e.start - a)) e.length (by omega)
    rw [hsplit2] at hsplit1
    rw [hsplit1, List.countP_append, List.countP_append]
    have hc1 : (List.range' a (e.start - a)).countP
        (fun o => decide (tagAt (e :: rest) o = some s)) = 0 := by
      rw [List.countP_eq_zero]
      intro o ho
      rw [List.mem_range'_1] at ho
      have hnone : tagAt (e :: rest) o = none := tagAt_eq_none (by
        intro x hx hcov
        rcases List.mem_cons.mp hx with rfl | hx2
        · omega
        · have := hrestlo x hx2
          omega)
      simp [hnone]
    have hc2 : (List.range' e.start e.length).countP
        (fun o => decide (tagAt (e :: rest) o = some s))
        = if e.tag = s then e.length else 0 := by
      have hval : ∀ o ∈ List.range' e.start e.length, tagAt (e :: rest) o = some e.tag := by
        intro o ho
        rw [List.mem_range'_1] at ho
        exact tagAt_of_covers hWF (List.mem_cons_self e rest) ⟨by omega, by omega⟩
      by_cases hts : e.tag = s
      · rw [if_pos hts]
        rw [List.countP_eq_length.mpr (fun o ho => by simp [hval o ho, hts]),
          List.length_range']
      · rw [if_neg hts]
        rw [List.countP_eq_zero]
        intro o ho
        simp [hval o ho]
        exact hts
    have hc3 : (List.range' (e.start + e.length) (n - (e.start - a) - e.length)).countP
        (fun o => decide (tagAt (e :: rest) o = some s))
        = ((rest.filter (fun x => x.tag = s)).map Region.length).sum := by
      have hcongr : (List.range' (e.start + e.length) (n - (e.start - a) - e.length)).countP
          (fun o => decide (tagAt (e :: rest) o = some s))
          = (List.range' (e.start + e.length) (n - (e.start - a) - e.length)).countP
            (fun o => decide (tagAt rest o = some s)) := by
        apply List.countP_congr
        intro o ho
        rw [List.mem_range'_1] at ho
        rw [tagAt_cons, if_neg (by omega)]
      rw [hcongr]
      exact ih (WF.of_cons hWF) (e.start + e.length) (n - (e.start - a) - e.length)
        (fun x hx => ⟨by have := hrestlo x hx; omega,
          by have := (hseg x (List.mem_cons_of_mem e hx)).2; omega⟩)
    rw [hc1, hc2, hc3]
    by_cases hts : e.tag = s
    · rw [if_pos hts, List.filter_cons_of_pos (by simpa using hts), List.map_cons,
        List.sum_cons]
      omega
    · rw [if_neg hts, List.filter_cons_of_neg (by simpa using hts)]
      omega

/-- `get_histogram` counts, per state, the offsets below `2^64 - 1` whose
tag is that state. -/
theorem getHistogram_eq_count {m : TaggedRange SectorState} (hWF : WF m)
    (hb : ∀ e ∈ m, e.stop ≤ U64LIMIT - 1) (s : SectorState) :
    getHistogram m s
      = (List.range' 0 (U64LIMIT - 1)).countP (fun o => decide (tagAt m o = some s)) := by
  rw [getHistogram_eq_sum hb s]
  exact (count_tag_segment m hWF 0 (U64LIMIT - 1)
    (fun e he => ⟨Nat.zero_le _, by have := hb e he; omega⟩)).symm

end DDare

namespace DDare

/-- C3 (amended): if the cached histogram matches the map and the
completed range is wholly tagged with the phase target, applying the
completion keeps the cached histogram equal to the histogram recomputed
from the map. -/
theorem c3_histogram_cached_eq_recomputed {st : EngineState} (hWF : WF st.mapRuns)
    (hbound : ∀ e ∈ st.mapRuns, e.stop ≤ U64LIMIT - 1)
    (hinv : ∀ s, st.histogram s = getHistogram st.mapRuns s)
    {t : SectorState} {r : Req} (hres : 0 < r.result)
    (hhi : r.offset + r.result.toNat ≤ U64LIMIT - 1)
    (hcover : ∀ o, r.offset ≤ o → o < r.offset + r.result.toNat →
      tagAt st.mapRuns o = some t) :
    ∀ s, (applyCompletion st t r).histogram s
      = getHistogram (applyCompletion st t r).mapRuns s := by
  intro s
  have hlt : r.offset < r.offset + r.result.toNat := by omega
  have hmap : (applyCompletion st t r).mapRuns
      = put st.mapRuns r.offset (r.offset + r.result.toNat) SectorState.Rescued := by
    rw [applyCompletion, if_pos hres]
  have hhist : (applyCompletion st t r).histogram
      = updateHistogram st.histogram r.result.toNat t SectorState.Rescued := by
    rw [applyCompletion, if_pos hres]
  have hWF2 := (put_props hWF hlt SectorState.Rescued).1
  have hbound2 := put_stop_bound hWF hlt SectorState.Rescued hbound hhi
  have hnew := (put_props hWF hlt SectorState.Rescued).2.1
  have hsplitA : List.range' 0 (U64LIMIT - 1)
      = List.range' 0 r.offset ++ List.range' r.offset (U64LIMIT - 1 - r.offset) := by
    have h1 := range'_split 0 (U64LIMIT - 1) r.offset (by omega)
    rw [Nat.zero_add] at h1
    exact h1
  have hsplitB : List.range' r.offset (U64LIMIT - 1 - r.offset)
      = List.range' r.offset r.result.toNat
        ++ List.range' (r.offset + r.result.toNat) (U64LIMIT - 1 - (r.offset + r.result.toNat)) := by
    have h1 := range'_split r.offset (U64LIMIT - 1 - r.offset) r.result.toNat (by omega)
    have h2 : U64LIMIT - 1 - r.offset - r.result.toNat
        = U64LIMIT - 1 - (r.offset + r.result.toNat) := by omega
    rw [h1, h2]
  have hseg1 : (List.range' 0 r.offset).countP
      (fun o => decide (tagAt (put st.mapRuns r.offset (r.offset + r.result.toNat)
        SectorState.Rescued) o = some s))
      = (List.range' 0 r.offset).countP (fun o => decide (tagAt st.mapRuns o = some s)) := by
    apply List.countP_congr
    intro o ho
    rw [List.mem_range'_1] at ho
    rw [hnew o, if_neg (by omega)]
  have hseg3 : (List.range' (r.offset + r.result.toNat)
        (U64LIMIT - 1 - (r.offset + r.result.toNat))).countP
      (fun o => decide (tagAt (put st.mapRuns r.offset (r.offset + r.result.toNat)
        SectorState.Rescued) o = some s))
      = (List.range' (r.offset + r.result.toNat)
          (U64LIMIT - 1 - (r.offset + r.result.toNat))).countP
        (fun o => decide (tagAt st.mapRuns o = some s)) := by
    apply List.countP_congr
    intro o ho
    rw [List.mem_range'_1] at ho
    rw [hnew o, if_neg (by omega)]
  have hseg2new : (List.range' r.offset r.result.toNat).countP
      (fun o => decide (tagAt (put st.mapRuns r.offset (r.offset + r.result.toNat)
        SectorState.Rescued) o = some s))
      = if s = SectorState.Rescued then r.result.toNat else 0 := by
    by_cases hrs : s = SectorState.Rescued
    · rw [if_pos hrs]
      rw [List.countP_eq_length.mpr (fun o ho => by
        rw [List.mem_range'_1] at ho
        rw [hnew o, if_pos ⟨by omega, by omega⟩]
        simp [hrs]), List.length_range']
    · rw [if_neg hrs]
      rw [List.countP_eq_zero]
      intro o ho
      rw [List.mem_range'_1] at ho
      rw [hnew o, if_pos ⟨by omega, by omega⟩]
      simp
      exact fun h => hrs h.symm
  have hseg2old : (List.range' r.offset r.result.toNat).countP
      (fun o => decide (tagAt st.mapRuns o = some s))
      = if s = t then r.result.toNat else 0 := by
    by_cases hts : s = t
    · rw [if_pos hts]
      rw [List.countP_eq_length.mpr (fun o ho => by
        rw [List.mem_range'_1] at ho
        rw [hcover o (by omega) (by omega)]
        simp [hts]), List.length_range']
    · rw [if_neg hts]
      rw [List.countP_eq_zero]
      intro o ho
      rw [List.mem_range'_1] at ho
      rw [hcover o (by omega) (by omega)]
      simp
      exact fun h => hts h.symm
  have hold : st.histogram s
      = (List.range' 0 r.offset).countP (fun o => decide (tagAt st.mapRuns o = some s))
        + ((if s = t then r.result.toNat else 0)
          + (List.range' (r.offset + r.result.toNat)
              (U64LIMIT - 1 - (r.offset + r.result.toNat))).countP
            (fun o => decide (tagAt st.mapRuns o = some s))) := by
    rw [hinv s, getHistogram_eq_count hWF hbound s, hsplitA, hsplitB,
      List.countP_append, List.countP_append, hseg2old]
  rw [hmap, hhist, getHistogram_eq_count hWF2 hbound2 s, hsplitA, hsplitB,
    List.countP_append, List.countP_append, hseg1, hseg2new, hseg3]
  show (if s = SectorState.Rescued
      then (if s = t then st.histogram s - r.result.toNat else st.histogram s) + r.result.toNat
      else (if s = t then st.histogram s - r.result.toNat else st.histogram s)) = _
  by_cases h2 : s = SectorState.Rescued
  · by_cases h3 : s = t
    · rw [if_pos h2, if_pos h3, if_pos h2]
      rw [if_pos h3] at hold
      omega
    · rw [if_pos h2, if_neg h3, if_pos h2]
      rw [if_neg h3] at hold
      omega
  · by_cases h3 : s = t
    · rw [if_neg h2, if_pos h3, if_neg h2]
      rw [if_pos h3] at hold
      omega
    · rw [if_neg h2, if_neg h3, if_neg h2]
      rw [if_neg h3] at hold
      omega

end DDare

namespace DDare

/-- C3 counterexample: a completion of `[0, 512)` when only `[100, 1024)`
is `Untried` (the first 100 bytes are `Bad`).  `update_histogram`
unconditionally moves 512 bytes out of the `Untried` bucket, leaving the
cache at 412 while the histogram recomputed from the map holds 512 — the
cached count drifts from the TIM. -/
theorem c3_histogram_drift :
    (applyCompletion
        ⟨[⟨0, 100, SectorState.Bad⟩, ⟨100, 924, SectorState.Untried⟩],
          getHistogram [⟨0, 100, SectorState.Bad⟩, ⟨100, 924, SectorState.Untried⟩],
          fun _ => 0⟩
        SectorState.Untried ⟨0, 512, 512, [1]⟩).histogram SectorState.Untried = 412 ∧
    getHistogram (applyCompletion
        ⟨[⟨0, 100, SectorState.Bad⟩, ⟨100, 924, SectorState.Untried⟩],
          getHistogram [⟨0, 100, SectorState.Bad⟩, ⟨100, 924, SectorState.Untried⟩],
          fun _ => 0⟩
        SectorState.Untried ⟨0, 512, 512, [1]⟩).mapRuns SectorState.Untried = 512 := by
  exact ⟨by decide, by decide⟩

/-- C3 witness: on a map that is wholly `Untried` over the completed
range, the cached histogram stays equal to the recomputed one. -/
theorem c3_histogram_cached_eq_recomputed_witness :
    (applyCompletion ⟨[⟨0, 1024, SectorState.Untried⟩],
        getHistogram [⟨0, 1024, SectorState.Untried⟩], fun _ => 0⟩
      SectorState.Untried ⟨0, 512, 512, [1]⟩).histogram SectorState.Untried
    = getHistogram (applyCompletion ⟨[⟨0, 1024, SectorState.Untried⟩],
        getHistogram [⟨0, 1024, SectorState.Untried⟩], fun _ => 0⟩
      SectorState.Untried ⟨0, 512, 512, [1]⟩).mapRuns SectorState.Untried :=
  @c3_histogram_cached_eq_recomputed
    ⟨[⟨0, 1024, SectorState.Untried⟩], getHistogram [⟨0, 1024, SectorState.Untried⟩],
      fun _ => 0⟩
    ⟨by simp, by decide⟩ (by decide) (fun _ => rfl)
    SectorState.Untried ⟨0, 512, 512, [1]⟩ (by decide) (by decide)
    (fun o h1 h2 => tagAt_of_covers ⟨by simp, by decide⟩ (List.mem_cons_self _ _)
      ⟨Nat.zero_le o, by
        have h2' : o < 512 := h2
        show o < 1024
        omega⟩)
    SectorState.Untried

end DDare

namespace DDare

/-- Folding `put` over a well-formed run list repaints each run's range
with its tag; offsets uncovered by the list keep the base map's tag. -/
theorem foldl_put_tagAt :
    ∀ (rs : List (Region SectorState)) (ss : TaggedRange SectorState), WF rs → WF ss →
      ∀ o, tagAt (rs.foldl (fun a r => put a r.start (r.start + r.length) r.tag) ss) o
        = (tagAt rs o).or (tagAt ss o) := by
  intro rs
  induction rs with
  | nil =>
    intro ss _ _ o
    rw [List.foldl_nil, tagAt_nil, Option.none_or]
  | cons r rest ih =>
    intro ss hWFrs hWFss o
    have hpos := hWFrs.2 r (List.mem_cons_self r rest)
    have hstop : r.stop = r.start + r.length := rfl
    have hlt : r.start < r.start + r.length := by omega
    rw [List.foldl_cons,
      ih (put ss r.start (r.start + r.length) r.tag) (WF.of_cons hWFrs)
        (put_props hWFss hlt r.tag).1 o,
      (put_props hWFss hlt r.tag).2.1 o, tagAt_cons]
    by_cases hc : r.start ≤ o ∧ o < r.stop
    · rw [if_pos hc, if_pos (by omega : r.start ≤ o ∧ o < r.start + r.length)]
      have hrest : tagAt rest o = none := tagAt_eq_none (by
        intro x hx hcov
        have hdisj : Disj r x := (List.pairwise_cons.mp hWFrs.1).1 x hx
        unfold Disj at hdisj
        omega)
      rw [hrest]
      rfl
    · rw [if_neg hc, if_neg (by omega : ¬(r.start ≤ o ∧ o < r.start + r.length))]

/-- The `max` fold of the loop stays below any bound dominating the run
ends and the seed. -/
theorem foldl_max_le (rs : List (Region SectorState)) :
    ∀ sz N, (∀ r ∈ rs, r.start + r.length ≤ N) → sz ≤ N →
      rs.foldl (fun a r => max a (r.start + r.length)) sz ≤ N := by
  induction rs with
  | nil =>
    intro sz N _ h2
    simpa using h2
  | cons r rest ih =>
    intro sz N h1 h2
    rw [List.foldl_cons]
    exact ih _ _ (fun x hx => h1 x (List.mem_cons_of_mem r hx))
      (by have := h1 r (List.mem_cons_self r rest); omega)

/-- The `max` fold never drops below its seed. -/
theorem foldl_max_ge_init (rs : List (Region SectorState)) :
    ∀ sz, sz ≤ rs.foldl (fun a r => max a (r.start + r.length)) sz := by
  induction rs with
  | nil =>
    intro sz
    simp
  | cons r rest ih =>
    intro sz
    rw [List.foldl_cons]
    have := ih (max sz (r.start + r.length))
    omega

/-- The `max` fold dominates every run end in the list. -/
theorem foldl_max_ge_mem :
    ∀ (rs : List (Region SectorState)) {e : Region SectorState}, e ∈ rs →
      ∀ sz, e.start + e.length ≤ rs.foldl (fun a r => max a (r.start + r.length)) sz := by
  intro rs
  induction rs with
  | nil =>
    intro e he
    cases he
  | cons r rest ih =>
    intro e he sz
    rw [List.foldl_cons]
    rcases List.mem_cons.mp he with rfl | h2
    · exact le_trans (le_max_right sz _) (foldl_max_ge_init rest _)
    · exact ih h2 _

/-- The region-line loop of `read_from_stream` on lines printed from a
run list: it rebuilds the map by `put`ting every run and takes the size
to the largest run end seen. -/
theorem readLoop_regions :
    ∀ rs : List (Region SectorState),
      (∀ r ∈ rs, r.start < U64LIMIT ∧ r.length < U64LIMIT) →
      ∀ (p : Nat) (ph : Phase) (pa : Nat) (ss : TaggedRange SectorState) (sz : Nat),
      readLoop (rs.map regionLineOf) true (some p) (some ph) (some pa) ss sz
        = Except.ok ⟨p, ph, pa, rs.foldl (fun a r => max a (r.start + r.length)) sz,
            rs.foldl (fun a r => put a r.start (r.start + r.length) r.tag) ss⟩ := by
  intro rs
  induction rs with
  | nil =>
    intro _ p ph pa ss sz
    rfl
  | cons r rest ih =>
    intro h p ph pa ss sz
    rw [List.map_cons, readLoop]
    have hhead : (regionLineOf r).head? = some '0' := by
      rw [regionLineOf, List.append_assoc, List.append_assoc, List.append_assoc]
      exact head?_hexPad8_append r.start _
    rw [hhead, if_neg (by decide : ¬(some '0' = some '#')), if_pos rfl]
    have hparse : parseRegionLine (regionLineOf r) = some (r.start, r.length, r.tag) := by
      rw [regionLineOf, (show ([' ', ' '] : List Char) = List.replicate 2 ' ' from rfl)]
      exact parseRegionLine_format (h r (List.mem_cons_self r rest)).1
        (h r (List.mem_cons_self r rest)).2 r.tag (by decide) (by decide)
    rw [hparse, List.foldl_cons, List.foldl_cons]
    exact ih (fun x hx => h x (List.mem_cons_of_mem r hx)) p ph pa _ _

end DDare

namespace DDare

/-- C2: writing a valid map file (one of the five spec phases, all runs
inside `[0, size)`, every byte covered, values below `2^64`) and parsing
the result succeeds and restores `pos`, `status`, `pass`, `size_bytes`
and the tag of every byte offset. -/
theorem c2_round_trip {m : MapFile} (hWF : WF m.sector_states)
    (hphase : m.status ∈ Phase.values)
    (hpos : m.pos < U64LIMIT) (hpass : m.pass < U64LIMIT)
    (hsize : m.size_bytes < U64LIMIT)
    (hstops : ∀ e ∈ m.sector_states, e.stop ≤ m.size_bytes)
    (hcov : ∀ o, o < m.size_bytes → (tagAt m.sector_states o).isSome = true) :
    (readFromLines (writeToLines m)).toOption.map MapFile.pos = some m.pos ∧
    (readFromLines (writeToLines m)).toOption.map MapFile.status = some m.status ∧
    (readFromLines (writeToLines m)).toOption.map MapFile.pass = some m.pass ∧
    (readFromLines (writeToLines m)).toOption.map MapFile.size_bytes = some m.size_bytes ∧
    ∀ o, (readFromLines (writeToLines m)).toOption.map
        (fun m' => tagAt m'.sector_states o) = some (tagAt m.sector_states o) := by
  have hbound : ∀ e ∈ m.sector_states, e.stop ≤ U64LIMIT - 1 := by
    intro e he
    have := hstops e he
    omega
  have hlines : writeToLines m = statusLineOf m :: m.sector_states.map regionLineOf := by
    rw [writeToLines, iterAll_eq_self hbound]
  have hreg : ∀ r ∈ m.sector_states, r.start < U64LIMIT ∧ r.length < U64LIMIT := by
    intro r hr
    have h1 := hstops r hr
    have h2 : r.stop = r.start + r.length := rfl
    have h3 := hWF.2 r hr
    omega
  have hshead : (statusLineOf m).head? = some '0' := by
    rw [statusLineOf, List.append_assoc, List.append_assoc, List.append_assoc]
    exact head?_hexPad8_append m.pos _
  have hsparse : parseStatusLine (statusLineOf m) = some (m.pos, m.status, m.pass) := by
    rw [statusLineOf]
    exact parseStatusLine_format hpos hpass hphase 5 5 (by decide) (by decide)
  have hrun : readFromLines (writeToLines m)
      = Except.ok ⟨m.pos, m.status, m.pass,
          m.sector_states.foldl (fun a r => max a (r.start + r.length)) 0,
          m.sector_states.foldl (fun a r => put a r.start (r.start + r.length) r.tag) []⟩ := by
    rw [hlines, readFromLines, readLoop, hshead,
      if_neg (by decide : ¬(some '0' = some '#')),
      if_neg (by decide : ¬(false = true)), hsparse]
    exact readLoop_regions m.sector_states hreg m.pos m.status m.pass [] 0
  have hsz : m.sector_states.foldl (fun a r => max a (r.start + r.length)) 0
      = m.size_bytes := by
    apply Nat.le_antisymm
    · exact foldl_max_le _ 0 m.size_bytes (fun r hr => by
        have h1 := hstops r hr
        have h2 : r.stop = r.start + r.length := rfl
        omega) (Nat.zero_le _)
    · by_cases h0 : m.size_bytes = 0
      · omega
      · have h1 := hcov (m.size_bytes - 1) (by omega)
        cases ht : tagAt m.sector_states (m.size_bytes - 1) with
        | none =>
          rw [ht] at h1
          simp at h1
        | some tg =>
          obtain ⟨e, hem, hcov2, _⟩ := (tagAt_iff hWF).mp ht
          have h2 := foldl_max_ge_mem m.sector_states hem 0
          have h3 : e.stop = e.start + e.length := rfl
          omega
  refine ⟨by rw [hrun]; rfl, by rw [hrun]; rfl, by rw [hrun]; rfl, ?_, ?_⟩
  · rw [hrun]
    show some (m.sector_states.foldl (fun a r => max a (r.start + r.length)) 0)
      = some m.size_bytes
    rw [hsz]
  · intro o
    rw [hrun]
    show some (tagAt (m.sector_states.foldl
        (fun a r => put a r.start (r.start + r.length) r.tag) []) o)
      = some (tagAt m.sector_states o)
    rw [foldl_put_tagAt m.sector_states [] hWF ⟨List.Pairwise.nil, by simp⟩ o, tagAt_nil,
      Option.or_none]

/-- C2 witness: a one-run map file round-trips, restoring the size and
the state of byte 5. -/
theorem c2_round_trip_witness :
    (readFromLines (writeToLines ⟨0, Phase.Copying, 1, 1024,
        [⟨0, 1024, SectorState.Untried⟩]⟩)).toOption.map MapFile.size_bytes = some 1024 ∧
    (readFromLines (writeToLines ⟨0, Phase.Copying, 1, 1024,
        [⟨0, 1024, SectorState.Untried⟩]⟩)).toOption.map
      (fun x => tagAt x.sector_states 5) = some (some SectorState.Untried) := by
  have h := @c2_round_trip ⟨0, Phase.Copying, 1, 1024, [⟨0, 1024, SectorState.Untried⟩]⟩
    ⟨by simp, by decide⟩ (by decide) (by decide) (by decide) (by decide) (by decide)
    (fun o ho => by
      rw [tagAt_of_covers ⟨by simp, by decide⟩ (List.mem_cons_self _ _)
        ⟨Nat.zero_le o, by show o < 1024; exact ho⟩]
      rfl)
  refine ⟨h.2.2.2.1, ?_⟩
  rw [h.2.2.2.2 5]
  rfl

end DDare
